import Mathlib

/-!
Verification development for the FSPS-Schools repository, file
`src/Fairfax_County/preprocess/html-processing/ollama_data_merger.py`.

Strings are modelled as `List Char` (ASCII data; Python's `str.lower`,
`\w` and `\s` are modelled by their ASCII behaviour, which covers every
input the script handles).  Missing/NaN cells are modelled as `none`.
Rational numbers stand in for Python floats: for the similarity ratios
`2*M/T` that appear here, the float and exact values compare to the
0.8 threshold identically on all inputs of the script's size.
-/

set_option maxRecDepth 40000

namespace FSPS

/-- The opening-brace character, written numerically. -/
def lbrace : Char := Char.ofNat 123

/-- The closing-brace character, written numerically. -/
def rbrace : Char := Char.ofNat 125

/-- ASCII whitespace, the set stripped by Python's `str.strip()` and
matched by `\s` (ASCII): space, tab, newline, carriage return,
vertical tab, form feed. -/
def pyIsSpace (c : Char) : Bool :=
  c = ' ' || c = '\t' || c = '\n' || c = '\r' || c = '\x0b' || c = '\x0c'

/-- A `\w` character in Python's `re` (ASCII): alphanumeric or underscore. -/
def isWordChar (c : Char) : Bool :=
  c.isAlphanum || c = '_'

/-- `str.lower()` (ASCII letters, as in the school-name data). -/
def toLowerL (s : List Char) : List Char :=
  s.map Char.toLower

/-- `str.strip()`: drop leading and trailing whitespace. -/
def stripL (s : List Char) : List Char :=
  ((s.dropWhile pyIsSpace).reverse.dropWhile pyIsSpace).reverse

/-- Python `str.replace(old, new)` for nonempty `old`: replace
non-overlapping occurrences left to right. -/
def replaceL (old new : List Char) : List Char → List Char
  | [] => []
  | c :: rest =>
    if h : old ≠ [] ∧ old.isPrefixOf (c :: rest) then
      new ++ replaceL old new ((c :: rest).drop old.length)
    else
      c :: replaceL old new rest
termination_by s => s.length
decreasing_by
  · simp only [List.length_drop, List.length_cons]
    have : 0 < old.length := List.length_pos.mpr h.1
    omega
  · simp only [List.length_cons]
    omega

/-- `re.sub(r'[^\w\s]', '', name)`: remove punctuation. -/
def stripPunct (s : List Char) : List Char :=
  s.filter (fun c => isWordChar c || pyIsSpace c)

/-- `re.sub(r'\s+', ' ', name)`: collapse each whitespace run to one space. -/
def collapseWS : List Char → List Char
  | [] => []
  | c :: rest =>
    if pyIsSpace c then ' ' :: collapseWS (rest.dropWhile pyIsSpace)
    else c :: collapseWS rest
termination_by s => s.length
decreasing_by
  · have := (List.dropWhile_sublist (l := rest) pyIsSpace).length_le
    simp only [List.length_cons]
    omega
  · simp only [List.length_cons]
    omega

/-- The ordered replacement table of `normalize_school_name`
(Python dicts iterate in insertion order). -/
def replacements : List (List Char × List Char) :=
  [(" elementary school".toList, " es".toList),
   (" middle school".toList, " ms".toList),
   (" high school".toList, " hs".toList),
   (" secondary school".toList, " ss".toList),
   (" elementary".toList, " es".toList),
   (" middle".toList, " ms".toList),
   (" high".toList, " hs".toList),
   (" secondary".toList, " ss".toList),
   (" school".toList, "".toList),
   (" center".toList, " ctr".toList),
   (" centre".toList, " ctr".toList),
   (" academy".toList, " acad".toList),
   (" alternative".toList, " alt".toList),
   (" international".toList, " intl".toList),
   (" magnet".toList, " mag".toList),
   (" charter".toList, " chtr".toList),
   (" campus".toList, "".toList),
   (" facility".toList, "".toList),
   (" program".toList, "".toList)]

/-- The `for old, new in replacements.items(): name = name.replace(old, new)` loop. -/
def applyReplacements (s : List Char) : List Char :=
  replacements.foldl (fun acc p => replaceL p.1 p.2 acc) s

/-- `normalize_school_name` from `ollama_data_merger.py`.  A `none`
input models a NaN cell (`pd.isna`), which yields the empty string. -/
def normalize_school_name (name : Option (List Char)) : List Char :=
  match name with
  | none => []
  | some n => stripL (collapseWS (stripPunct (applyReplacements (stripL (toLowerL n)))))

/-- Lookup in a Python dict modelled as an association list (first match;
keys built through `dictUpdate` stay unique). -/
def lookupD {α : Type} : List (List Char × α) → List Char → Option α
  | [], _ => none
  | (k, v) :: rest, key => if k = key then some v else lookupD rest key

/-- Python dict assignment `d[k] = v`: overwrite in place if the key
exists, else append. -/
def dictUpdate {α : Type} (d : List (List Char × α)) (kv : List Char × α) :
    List (List Char × α) :=
  if (d.map Prod.fst).contains kv.1 then
    d.map (fun p => if p.1 = kv.1 then (p.1, kv.2) else p)
  else d ++ [kv]

/-- Python `{**a, **b}` / `a.update(b)`: entries of `b` override `a`. -/
def dictMerge {α : Type} (a b : List (List Char × α)) : List (List Char × α) :=
  b.foldl dictUpdate a

/-! ### difflib.SequenceMatcher(None, a, b)

`__chain_b` builds `b2j`, mapping each character of `b` to its ascending
index list; with no junk argument the junk set is empty, and autojunk
removes characters occurring more than `len(b)//100 + 1` times once
`len(b) >= 200`. -/

/-- Ascending indices `j` with `b[j] = c` (one `b2j` entry before autojunk). -/
def indicesOf (c : Char) (b : List Char) : List Nat :=
  (List.range b.length).filter (fun j => b.getD j ' ' == c)

/-- difflib autojunk test on `b`. -/
def isPopular (b : List Char) (c : Char) : Bool :=
  decide (200 ≤ b.length) && decide (b.length / 100 + 1 < (indicesOf c b).length)

/-- The `b2j` table of `SequenceMatcher(None, a, b)`. -/
def b2j (b : List Char) (c : Char) : List Nat :=
  if isPopular b c then [] else indicesOf c b

/-- The running `besti, bestj, bestsize` triple of `find_longest_match`. -/
structure FlmBest where
  besti : Nat
  bestj : Nat
  bestsize : Nat
  deriving DecidableEq

/-- Inner loop of `find_longest_match` over `b2j[a[i]]` (ascending `j`),
with Python's `continue` below `blo` and `break` at `bhi`.  `j2len` is the
previous row's dict (default value 0), `newj2len` the row being built. -/
def flmInner (blo bhi i : Nat) (j2len : Nat → Nat) :
    List Nat → (Nat → Nat) → FlmBest → (Nat → Nat) × FlmBest
  | [], newj2len, best => (newj2len, best)
  | j :: js, newj2len, best =>
    if j < blo then flmInner blo bhi i j2len js newj2len best
    else if bhi ≤ j then (newj2len, best)
    else
      let k := (if j = 0 then 0 else j2len (j - 1)) + 1
      let newj2len' := fun x => if x = j then k else newj2len x
      let best' := if best.bestsize < k then FlmBest.mk (i + 1 - k) (j + 1 - k) k else best
      flmInner blo bhi i j2len js newj2len' best'

/-- Outer loop of `find_longest_match` over `i in range(alo, ahi)`. -/
def flmOuter (a b : List Char) (blo bhi : Nat) :
    List Nat → (Nat → Nat) → FlmBest → FlmBest
  | [], _, best => best
  | i :: rows, j2len, best =>
    let r := flmInner blo bhi i j2len (b2j b (a.getD i ' ')) (fun _ => 0) best
    flmOuter a b blo bhi rows r.1 r.2

/-- First extension pass: grow the block leftwards over non-junk matches. -/
def extendLeft (a b : List Char) (alo blo : Nat) (junk : Char → Bool) (best : FlmBest) :
    FlmBest :=
  if h : alo < best.besti ∧ blo < best.bestj ∧
      junk (b.getD (best.bestj - 1) ' ') = false ∧
      a.getD (best.besti - 1) ' ' = b.getD (best.bestj - 1) ' ' then
    extendLeft a b alo blo junk ⟨best.besti - 1, best.bestj - 1, best.bestsize + 1⟩
  else best
termination_by best.besti
decreasing_by simp; omega

/-- Second extension pass: grow the block rightwards over non-junk matches. -/
def extendRight (a b : List Char) (ahi bhi : Nat) (junk : Char → Bool) (best : FlmBest) :
    FlmBest :=
  if h : best.besti + best.bestsize < ahi ∧ best.bestj + best.bestsize < bhi ∧
      junk (b.getD (best.bestj + best.bestsize) ' ') = false ∧
      a.getD (best.besti + best.bestsize) ' ' = b.getD (best.bestj + best.bestsize) ' ' then
    extendRight a b ahi bhi junk ⟨best.besti, best.bestj, best.bestsize + 1⟩
  else best
termination_by ahi - (best.besti + best.bestsize)
decreasing_by simp; omega

/-- Third extension pass: grow leftwards over junk matches. -/
def extendLeftJunk (a b : List Char) (alo blo : Nat) (junk : Char → Bool) (best : FlmBest) :
    FlmBest :=
  if h : alo < best.besti ∧ blo < best.bestj ∧
      junk (b.getD (best.bestj - 1) ' ') = true ∧
      a.getD (best.besti - 1) ' ' = b.getD (best.bestj - 1) ' ' then
    extendLeftJunk a b alo blo junk ⟨best.besti - 1, best.bestj - 1, best.bestsize + 1⟩
  else best
termination_by best.besti
decreasing_by simp; omega

/-- Fourth extension pass: grow rightwards over junk matches. -/
def extendRightJunk (a b : List Char) (ahi bhi : Nat) (junk : Char → Bool) (best : FlmBest) :
    FlmBest :=
  if h : best.besti + best.bestsize < ahi ∧ best.bestj + best.bestsize < bhi ∧
      junk (b.getD (best.bestj + best.bestsize) ' ') = true ∧
      a.getD (best.besti + best.bestsize) ' ' = b.getD (best.bestj + best.bestsize) ' ' then
    extendRightJunk a b ahi bhi junk ⟨best.besti, best.bestj, best.bestsize + 1⟩
  else best
termination_by ahi - (best.besti + best.bestsize)
decreasing_by simp; omega

/-- `SequenceMatcher.find_longest_match` on the window
`a[alo:ahi] x b[blo:bhi]` for `SequenceMatcher(None, a, b)`: the junk
set is empty, so `isbjunk` is constantly false. -/
def find_longest_match (a b : List Char) (alo ahi blo bhi : Nat) : FlmBest :=
  let main := flmOuter a b blo bhi (List.range' alo (ahi - alo)) (fun _ => 0) ⟨alo, blo, 0⟩
  let e1 := extendLeft a b alo blo (fun _ => false) main
  let e2 := extendRight a b ahi bhi (fun _ => false) e1
  let e3 := extendLeftJunk a b alo blo (fun _ => false) e2
  extendRightJunk a b ahi bhi (fun _ => false) e3

/-- The recursive block collection behind `get_matching_blocks`.  CPython
keeps an explicit LIFO queue and sorts afterwards; this structural
recursion over the same window tree produces the same multiset of blocks
(each window splits around its longest match with the same guards).  The
fuel argument only serves termination; `a.length + 1` always suffices
because each sub-window is strictly narrower on the `a` side. -/
def mblocksF (a b : List Char) : Nat → Nat → Nat → Nat → Nat → List (Nat × Nat × Nat)
  | 0, _, _, _, _ => []
  | fuel + 1, alo, ahi, blo, bhi =>
    let r := find_longest_match a b alo ahi blo bhi
    if r.bestsize = 0 then []
    else
      (if alo < r.besti ∧ blo < r.bestj then
        mblocksF a b fuel alo r.besti blo r.bestj
      else []) ++
      [(r.besti, r.bestj, r.bestsize)] ++
      (if r.besti + r.bestsize < ahi ∧ r.bestj + r.bestsize < bhi then
        mblocksF a b fuel (r.besti + r.bestsize) ahi (r.bestj + r.bestsize) bhi
      else [])

/-- Lexicographic order on block triples, the order of Python's
`matching_blocks.sort()`. -/
def tripLe (x y : Nat × Nat × Nat) : Bool :=
  decide (x.1 < y.1) ||
    (decide (x.1 = y.1) &&
      (decide (x.2.1 < y.2.1) || (decide (x.2.1 = y.2.1) && decide (x.2.2 ≤ y.2.2))))

/-- The second pass of `get_matching_blocks`: collapse adjacent blocks,
starting from the accumulator triple `(i1, j1, k1) = (0, 0, 0)`. -/
def mergeAdjacent : Nat × Nat × Nat → List (Nat × Nat × Nat) → List (Nat × Nat × Nat)
  | (i1, j1, k1), [] => if k1 ≠ 0 then [(i1, j1, k1)] else []
  | (i1, j1, k1), (i2, j2, k2) :: rest =>
    if i1 + k1 = i2 ∧ j1 + k1 = j2 then mergeAdjacent (i1, j1, k1 + k2) rest
    else
      (if k1 ≠ 0 then [(i1, j1, k1)] else []) ++ mergeAdjacent (i2, j2, k2) rest

/-- `SequenceMatcher.get_matching_blocks`. -/
def get_matching_blocks (a b : List Char) : List (Nat × Nat × Nat) :=
  let blocks := mblocksF a b (a.length + 1) 0 a.length 0 b.length
  mergeAdjacent (0, 0, 0) (blocks.mergeSort tripLe) ++ [(a.length, b.length, 0)]

/-- Total size of the matching blocks (`sum(size for ... in blocks)`). -/
def sumSizes (l : List (Nat × Nat × Nat)) : Nat :=
  (l.map (fun t => t.2.2)).sum

/-- `SequenceMatcher.ratio()`: `2*M/T`, or `1.0` when both strings are
empty (`_calculate_ratio`).  Exact rationals model the float value. -/
def ratioQ (a b : List Char) : ℚ :=
  let m := sumSizes (get_matching_blocks a b)
  let t := a.length + b.length
  if t = 0 then 1 else 2 * (m : ℚ) / (t : ℚ)

/-- `fuzzy_match_schools(csv_names, excel_names, threshold)` from
`ollama_data_merger.py`.  The result dict is an association list;
`if best_match:` is Python truthiness, false for `None` and for the
empty string. -/
def fuzzy_match_schools (csv_names excel_names : List (List Char)) (threshold : ℚ) :
    List (List Char × List Char) :=
  csv_names.foldl
    (fun acc csv_name =>
      let r := excel_names.foldl
        (fun st excel_name =>
          let score := ratioQ csv_name excel_name
          if st.2 < score ∧ threshold ≤ score then (some excel_name, score) else st)
        ((none : Option (List Char)), (0 : ℚ))
      match r.1 with
      | some bm => if bm.isEmpty then acc else dictUpdate acc (csv_name, bm)
      | none => acc)
    []

/-- Maximum of the qualifying (threshold-reaching) ratios of `s` against
the targets, if any; a proof device for the loop characterization. -/
def qualMax (t : ℚ) (s : List Char) : List (List Char) → Option ℚ
  | [] => none
  | b :: bs =>
    let r := ratioQ s b
    let rest := qualMax t s bs
    if t ≤ r then some (match rest with | none => r | some m => max r m) else rest

/-- Maximum similarity ratio of `s` against a list of targets. -/
def maxRatioQ (s : List Char) : List (List Char) → Option ℚ
  | [] => none
  | b :: bs =>
    match maxRatioQ s bs with
    | none => some (ratioQ s b)
    | some m => some (max (ratioQ s b) m)

/-- Selector following the spec's words, as amended: pick the
first-encountered target attaining the maximum ratio, and accept it only
when that maximum reaches the threshold, is strictly positive, and the
selected target is nonempty. -/
def specSelect (t : ℚ) (s : List Char) (bs : List (List Char)) : Option (List Char) :=
  match maxRatioQ s bs with
  | none => none
  | some m =>
    if t ≤ m ∧ 0 < m then
      match bs.find? (fun b => ratioQ s b == m) with
      | none => none
      | some b => if b.isEmpty then none else some b
    else none

/-- Column `j` is active in the equal-strings analysis of
`find_longest_match s s`: in bounds, with its character kept by autojunk. -/
def activeCol (s : List Char) (j : Nat) : Bool :=
  decide (j < s.length) && !(isPopular s (s.getD j ' '))

/-- Length of the maximal run of active columns ending at `j`. -/
def runLen (s : List Char) : Nat → Nat
  | 0 => if activeCol s 0 then 1 else 0
  | j + 1 => if activeCol s (j + 1) then runLen s j + 1 else 0

/-! ### extract_json_dict and Python's json.loads -/

/-- JSON values as produced by `json.loads` (numbers kept as their
source text, which is all the pipeline ever inspects). -/
inductive JVal where
  | jnull
  | jbool (b : Bool)
  | jnum (raw : List Char)
  | jstr (s : List Char)
  | jarr (xs : List JVal)
  | jobj (kvs : List (List Char × JVal))

/-- JSON whitespace (`' \t\n\r'`), skipped by the decoder. -/
def jws (s : List Char) : List Char :=
  s.dropWhile (fun c => c = ' ' || c = '\t' || c = '\n' || c = '\r')

/-- Hexadecimal digit test for `\uXXXX` escapes. -/
def isHexDigit (c : Char) : Bool :=
  c.isDigit || ('a' ≤ c && c ≤ 'f') || ('A' ≤ c && c ≤ 'F')

/-- Value of a hexadecimal digit. -/
def hexVal (c : Char) : Nat :=
  if c.isDigit then c.toNat - 48
  else if 'a' ≤ c && c ≤ 'f' then c.toNat - 87
  else c.toNat - 55

/-- Scan a JSON string body (after the opening quote) in strict mode:
decode the escapes `\" \\ \/ \b \f \n \r \t \uXXXX`, reject raw control
characters below 0x20, and return the decoded content with the rest of
the input after the closing quote.  (A `\uXXXX` escape is decoded as a
single scalar; Python additionally pairs surrogates, which never occur
in this pipeline's ASCII data.) -/
def jstrLoop : List Char → Option (List Char × List Char)
  | [] => none
  | c :: rest =>
    if c = '"' then some ([], rest)
    else if c = '\\' then
      match rest with
      | [] => none
      | e :: rest2 =>
        if e = '"' then (jstrLoop rest2).map (fun r => ('"' :: r.1, r.2))
        else if e = '\\' then (jstrLoop rest2).map (fun r => ('\\' :: r.1, r.2))
        else if e = '/' then (jstrLoop rest2).map (fun r => ('/' :: r.1, r.2))
        else if e = 'b' then (jstrLoop rest2).map (fun r => ('\x08' :: r.1, r.2))
        else if e = 'f' then (jstrLoop rest2).map (fun r => ('\x0c' :: r.1, r.2))
        else if e = 'n' then (jstrLoop rest2).map (fun r => ('\n' :: r.1, r.2))
        else if e = 'r' then (jstrLoop rest2).map (fun r => ('\r' :: r.1, r.2))
        else if e = 't' then (jstrLoop rest2).map (fun r => ('\t' :: r.1, r.2))
        else if e = 'u' then
          match rest2 with
          | h1 :: h2 :: h3 :: h4 :: rest3 =>
            if isHexDigit h1 && isHexDigit h2 && isHexDigit h3 && isHexDigit h4 then
              (jstrLoop rest3).map (fun r =>
                (Char.ofNat (4096 * hexVal h1 + 256 * hexVal h2 + 16 * hexVal h3 + hexVal h4)
                  :: r.1, r.2))
            else none
          | _ => none
        else none
    else if c.toNat < 32 then none
    else (jstrLoop rest).map (fun r => (c :: r.1, r.2))
termination_by s => s.length
decreasing_by all_goals (simp_all; try omega)

/-- The integer part of the JSON number grammar: `0 | [1-9][0-9]*`. -/
def jparseIntPart : List Char → Option (List Char × List Char)
  | [] => none
  | c :: rest =>
    if c = '0' then some ([c], rest)
    else if c.isDigit then
      some (c :: rest.takeWhile Char.isDigit, rest.dropWhile Char.isDigit)
    else none

/-- Match Python json's `NUMBER_RE` at the head of the input:
`(-?(0|[1-9]\d*))(\.\d+)?([eE][-+]?\d+)?`. -/
def jparseNum (s : List Char) : Option (List Char × List Char) :=
  let neg : List Char × List Char :=
    match s with
    | '-' :: rest => (['-'], rest)
    | _ => ([], s)
  match jparseIntPart neg.2 with
  | none => none
  | some (ip, s2) =>
    let fp : List Char × List Char :=
      match s2 with
      | '.' :: r =>
        let d := r.takeWhile Char.isDigit
        if d.isEmpty then ([], s2) else ('.' :: d, r.dropWhile Char.isDigit)
      | _ => ([], s2)
    let ep : List Char × List Char :=
      match fp.2 with
      | e :: r =>
        if e = 'e' ∨ e = 'E' then
          let sgn : List Char × List Char :=
            match r with
            | c :: r3 => if c = '+' ∨ c = '-' then ([c], r3) else ([], c :: r3)
            | [] => ([], [])
          let d := sgn.2.takeWhile Char.isDigit
          if d.isEmpty then ([], fp.2)
          else (e :: (sgn.1 ++ d), sgn.2.dropWhile Char.isDigit)
        else ([], fp.2)
      | [] => ([], fp.2)
    some (neg.1 ++ ip ++ fp.1 ++ ep.1, ep.2)

mutual

/-- Python json's `_scan_once`: parse one JSON value at the head of the
input (strings, objects, arrays, `null`/`true`/`false`, numbers, and the
CPython extensions `NaN`, `Infinity`, `-Infinity`).  The fuel argument
only serves termination; every recursive call consumes input, so the
generous fuel passed by `jloads` never runs out. -/
def jparseVal : Nat → List Char → Option (JVal × List Char)
  | 0, _ => none
  | fuel + 1, s =>
    match s with
    | [] => none
    | c :: rest =>
      if c = '"' then (jstrLoop rest).map (fun r => (JVal.jstr r.1, r.2))
      else if c = lbrace then jparseObjBody fuel (jws rest)
      else if c = '[' then jparseArrBody fuel (jws rest)
      else if s.take 4 = "null".toList then some (JVal.jnull, s.drop 4)
      else if s.take 4 = "true".toList then some (JVal.jbool true, s.drop 4)
      else if s.take 5 = "false".toList then some (JVal.jbool false, s.drop 5)
      else
        match jparseNum s with
        | some (raw, rest2) => some (JVal.jnum raw, rest2)
        | none =>
          if s.take 3 = "NaN".toList then some (JVal.jnum "NaN".toList, s.drop 3)
          else if s.take 8 = "Infinity".toList then
            some (JVal.jnum "Infinity".toList, s.drop 8)
          else if s.take 9 = "-Infinity".toList then
            some (JVal.jnum "-Infinity".toList, s.drop 9)
          else none

/-- Object body after the opening brace and whitespace. -/
def jparseObjBody : Nat → List Char → Option (JVal × List Char)
  | 0, _ => none
  | fuel + 1, s =>
    match s with
    | [] => none
    | c :: rest =>
      if c = rbrace then some (JVal.jobj [], rest)
      else jparseMembers (fuel + 1) [] (c :: rest)

/-- The member loop of a JSON object: `"key" : value (, "key" : value)* }`. -/
def jparseMembers : Nat → List (List Char × JVal) → List Char →
    Option (JVal × List Char)
  | 0, _, _ => none
  | fuel + 1, acc, s =>
    match s with
    | '"' :: rest =>
      match jstrLoop rest with
      | none => none
      | some (key, s2) =>
        match jws s2 with
        | ':' :: s3 =>
          match jparseVal fuel (jws s3) with
          | none => none
          | some (v, s4) =>
            match jws s4 with
            | c :: s5 =>
              if c = rbrace then some (JVal.jobj (acc ++ [(key, v)]), s5)
              else if c = ',' then jparseMembers fuel (acc ++ [(key, v)]) (jws s5)
              else none
            | [] => none
        | _ => none
    | _ => none

/-- Array body after the opening bracket and whitespace. -/
def jparseArrBody : Nat → List Char → Option (JVal × List Char)
  | 0, _ => none
  | fuel + 1, s =>
    match s with
    | [] => none
    | c :: rest =>
      if c = ']' then some (JVal.jarr [], rest)
      else jparseElems (fuel + 1) [] (c :: rest)

/-- The element loop of a JSON array: `value (, value)* ]`. -/
def jparseElems : Nat → List JVal → List Char → Option (JVal × List Char)
  | 0, _, _ => none
  | fuel + 1, acc, s =>
    match jparseVal fuel s with
    | none => none
    | some (v, s2) =>
      match jws s2 with
      | c :: s3 =>
        if c = ']' then some (JVal.jarr (acc ++ [v]), s3)
        else if c = ',' then jparseElems fuel (acc ++ [v]) (jws s3)
        else none
      | [] => none

end

/-- `json.loads`: skip leading whitespace, parse one value, require only
whitespace afterwards ("Extra data" otherwise). -/
def jloads (s : List Char) : Option JVal :=
  match jparseVal (4 * s.length + 8) (jws s) with
  | some (v, rest) => if (jws rest).isEmpty then some v else none
  | none => none

/-- `json.loads` succeeds on `s`. -/
def validJson (s : List Char) : Bool :=
  (jloads s).isSome

/-- The ways `extract_json_dict` can raise. -/
inductive ExtractErr where
  | noBrace
  | noValid
  | badJson
  deriving DecidableEq

/-- The character loop of `extract_json_dict`, started at the first
opening brace: state is `(brace_count, in_str, escape)`, and `acc` holds
the scanned characters in reverse.  On the brace that returns the depth
to zero, the candidate is checked with `json.loads` (`badJson` models
the `JSONDecodeError` it raises on an invalid candidate). -/
def extractLoop : List Char → Int → Bool → Bool → List Char → Except ExtractErr (List Char)
  | [], _, _, _, _ => .error .noValid
  | c :: rest, bc, instr, esc, acc =>
    if c = '"' ∧ esc = false then extractLoop rest bc (!instr) false (c :: acc)
    else if c = '\\' ∧ esc = false then extractLoop rest bc instr true (c :: acc)
    else if instr = false ∧ c = lbrace then extractLoop rest (bc + 1) instr false (c :: acc)
    else if instr = false ∧ c = rbrace then
      if bc - 1 = 0 then
        let js := (c :: acc).reverse
        if validJson js then .ok js else .error .badJson
      else extractLoop rest (bc - 1) instr false (c :: acc)
    else extractLoop rest bc instr false (c :: acc)

/-- `extract_json_dict` from `ollama_data_merger.py`. -/
def extract_json_dict (text : List Char) : Except ExtractErr (List Char) :=
  if (text.dropWhile (fun c => c != lbrace)).isEmpty then .error .noBrace
  else extractLoop (text.dropWhile (fun c => c != lbrace)) 0 false false []

/-- One step of the quote-and-escape-aware depth scan of
`extract_json_dict`; the state is `(brace_count, in_str, escape)`. -/
def scanStep : Int × Bool × Bool → Char → Int × Bool × Bool
  | (bc, instr, esc), c =>
    if c = '"' ∧ esc = false then (bc, !instr, false)
    else if c = '\\' ∧ esc = false then (bc, instr, true)
    else if instr = false ∧ c = lbrace then (bc + 1, instr, false)
    else if instr = false ∧ c = rbrace then (bc - 1, instr, false)
    else (bc, instr, false)

/-- Run the depth scan from the initial state over a character list. -/
def runScan (s : List Char) : Int × Bool × Bool :=
  s.foldl scanStep (0, false, false)

/-! ### get_name_mapping -/

/-- Extract-and-parse one resolver response, as in the `try` block of
`get_name_mapping`: `extract_json_dict`, then `json.loads` on the
candidate, then `mapping.update(...)`, which needs a JSON object (a
non-object value makes `update` raise, which the catch-all `except`
also turns into a skipped chunk). -/
def parseResponse (text : List Char) : Option (List (List Char × JVal)) :=
  match extract_json_dict text with
  | .error _ => none
  | .ok s =>
    match jloads s with
    | some (JVal.jobj kvs) => some kvs
    | _ => none

/-- The `for i in range(0, len(csv_names), batch_size)` loop of
`get_name_mapping`.  The network collaborator `query_ollama` is modelled
as an oracle from the prompt's two variable parts (the known names and
the chunk) to the response text.  Besides the mapping, the accumulator
records the chunk of each request issued, one per iteration.  The
`0 < bs` guard mirrors `range`'s requirement of a nonzero step. -/
def gnmLoop (oracle : List (List Char) → List (List Char) → List Char)
    (known csv : List (List Char)) (bs : Nat) (i : Nat)
    (acc : List (List Char × JVal) × List (List (List Char))) :
    List (List Char × JVal) × List (List (List Char)) :=
  if h : i < csv.length ∧ 0 < bs then
    let chunk := (csv.drop i).take bs
    let acc2 :=
      match parseResponse (oracle known chunk) with
      | some kvs => (kvs.foldl dictUpdate acc.1, acc.2 ++ [chunk])
      | none => (acc.1, acc.2 ++ [chunk])
    gnmLoop oracle known csv bs (i + bs) acc2
  else acc
termination_by csv.length - i
decreasing_by omega

/-- `get_name_mapping(known_names, csv_names, batch_size)`: the final
mapping together with the queried chunks. -/
def get_name_mapping (oracle : List (List Char) → List (List Char) → List Char)
    (known csv : List (List Char)) (bs : Nat) :
    List (List Char × JVal) × List (List (List Char)) :=
  gnmLoop oracle known csv bs 0 ([], [])

/-- Consecutive chunks of size `bs` (spec-side description of the
batching; empty when `bs = 0`, where Python's `range` would raise). -/
def chunksOf {α : Type} (bs : Nat) (l : List α) : List (List α) :=
  if h : l.isEmpty = true ∨ bs = 0 then []
  else l.take bs :: chunksOf bs (l.drop bs)
termination_by l.length
decreasing_by
  have hl : l ≠ [] := fun he => h (Or.inl (by simp [he]))
  have : 0 < l.length := List.length_pos.mpr hl
  simp only [List.length_drop]
  omega

/-! ### process_dataset -/

/-- A row of the source (CSV-shaped) table: its `School_Name` cell
(`none` models NaN) plus the remaining columns, opaque to the merger. -/
structure CsvRow where
  school_name : Option (List Char)
  payload : Nat
  deriving DecidableEq

/-- A row of the target (Excel-shaped) table: its `School Name` cell
plus the remaining columns, opaque to the merger. -/
structure ExcelRow where
  school_name : Option (List Char)
  payload : Nat
  deriving DecidableEq

/-- A row of the merged output: the source row with its derived columns,
and the joined target row (`none` = all target-sourced columns null). -/
structure MergedRow where
  src : CsvRow
  orig : Option (List Char)
  norm : List Char
  mapped : List Char
  tgt : Option ExcelRow
  deriving DecidableEq

/-- The placeholder rows filtered out before any processing. -/
def test_schools : List (List Char) :=
  ["Test Site Elementary School".toList, "Test Site Elementary".toList,
   "test site elementary school".toList]

/-- `csv_df['School_Name'].isin(test_schools)`: exact match on the raw
cell; a NaN cell is never in the list. -/
def isTestSchool (s : Option (List Char)) : Bool :=
  match s with
  | some n => test_schools.contains n
  | none => false

/-- `csv_df[~csv_df['School_Name'].isin(test_schools)]`. -/
def filterTests (csv : List CsvRow) : List CsvRow :=
  csv.filter (fun r => !isTestSchool r.school_name)

/-- `Original_School_Name = School_Name.str.strip()` (NaN stays NaN). -/
def csvOrig (r : CsvRow) : Option (List Char) :=
  r.school_name.map stripL

/-- `Normalized_School_Name` of a source row. -/
def csvNorm (r : CsvRow) : List Char :=
  normalize_school_name (csvOrig r)

/-- `Original_School_Name` of a target row. -/
def excelOrig (r : ExcelRow) : Option (List Char) :=
  r.school_name.map stripL

/-- `Normalized_School_Name` of a target row. -/
def excelNorm (r : ExcelRow) : List Char :=
  normalize_school_name (excelOrig r)

/-- Lexicographic order on strings, as `sorted()` compares them. -/
def lexLe : List Char → List Char → Bool
  | [], _ => true
  | _ :: _, [] => false
  | c :: cs, d :: ds => if c = d then lexLe cs ds else decide (c < d)

/-- `sorted(column.unique())`: the distinct values in ascending order. -/
def pyUniqueSorted (l : List (List Char)) : List (List Char) :=
  l.dedup.mergeSort lexLe

/-- The dict comprehension
`{name: cached_mapping[name] for name in csv_names if name in cached_mapping}`
(an absent or empty `cached_mapping` yields the empty dict either way). -/
def cachedMatchesOf (cached : List (List Char × List Char)) (names : List (List Char)) :
    List (List Char × List Char) :=
  names.filterMap (fun n => (lookupD cached n).map (fun v => (n, v)))

/-- The `final_mapping = {**cached_matches, **fuzzy_matches, **ollama_mapping}`
computed by `process_dataset`.  The resolver-derived mapping is a
parameter (it comes from the network collaborator); as in the script it
is consulted only when names remain after the fuzzy tier, and its values
are the normalized target names. -/
def finalMapping (csv : List CsvRow) (excel : List ExcelRow)
    (cached ollama : List (List Char × List Char)) : List (List Char × List Char) :=
  let csv1 := filterTests csv
  let csv_names := pyUniqueSorted (csv1.map csvNorm)
  let excel_names := pyUniqueSorted (excel.map excelNorm)
  let cached_matches := cachedMatchesOf cached csv_names
  let unmatched := csv_names.filter (fun n => (lookupD cached_matches n).isNone)
  let fuzzy := fuzzy_match_schools unmatched excel_names (4 / 5)
  let still := unmatched.filter (fun n => (lookupD fuzzy n).isNone)
  let ollama2 := if still.isEmpty then [] else ollama
  dictMerge (dictMerge cached_matches fuzzy) ollama2

/-- `Mapped_Normalized_Name`: `map(final_mapping)` then
`fillna(Normalized_School_Name)`. -/
def mappedNameOf (final : List (List Char × List Char)) (n : List Char) : List Char :=
  (lookupD final n).getD n

/-- The pure core of `process_dataset`: placeholder filtering, the
derived columns, and the left join
`csv_df.merge(excel_df, how='left', left_on='Mapped_Normalized_Name',
right_on='Normalized_School_Name')` — every source row in order, each
paired with its matching target rows in order, or with `none` when no
target key equals its mapped key. -/
def process_dataset (csv : List CsvRow) (excel : List ExcelRow)
    (cached ollama : List (List Char × List Char)) : List MergedRow :=
  let csv1 := filterTests csv
  let final := finalMapping csv excel cached ollama
  csv1.flatMap (fun r =>
    let key := mappedNameOf final (csvNorm r)
    let ms := excel.filter (fun t => excelNorm t == key)
    if ms.isEmpty then [MergedRow.mk r (csvOrig r) (csvNorm r) key none]
    else ms.map (fun t => MergedRow.mk r (csvOrig r) (csvNorm r) key (some t)))

/-- A balanced candidate of the depth scan: the quote-and-escape-aware
brace depth of `s` is zero at its end and strictly positive on every
proper nonempty initial segment, so `s` ends exactly at the brace that
returns the depth to zero. -/
def balancedCand (s : List Char) : Prop :=
  (runScan s).1 = 0 ∧ ∀ q, q ≠ [] → q <+: s → q ≠ s → 1 ≤ (runScan q).1

/-- What `extractLoop` guarantees about its result when started after a
scanned portion `pre` (depth-positive on all of its nonempty initial
segments) with `rest` still to process. -/
def extractPost (pre rest : List Char) : Except ExtractErr (List Char) → Prop
  | .ok s => ∃ mid rest2, rest = mid ++ rest2 ∧ s = pre ++ mid ∧
      balancedCand s ∧ validJson s = true
  | .error .badJson => ∃ s mid rest2, rest = mid ++ rest2 ∧ s = pre ++ mid ∧
      balancedCand s ∧ validJson s = false
  | .error .noValid => ∀ q, q ≠ [] → q <+: pre ++ rest → 1 ≤ (runScan q).1
  | .error .noBrace => False

/-- Loop invariant of the main `find_longest_match` loop on two copies of
`s` over the full window, before processing row `m`: the previous row's
`j2len` is bounded by the active-column runs and by the run ending at the
previous row, is exact on the diagonal, and the best block so far is
diagonal, at least as large as every run ending before `m`, and inside
the string. -/
def flmINV (s : List Char) (m : Nat) (j2len : Nat → Nat) (best : FlmBest) : Prop :=
  (∀ x, j2len x ≤ runLen s x) ∧
  (∀ x, j2len x ≤ (if m = 0 then 0 else runLen s (m - 1))) ∧
  (m = 0 ∨ j2len (m - 1) = runLen s (m - 1)) ∧
  best.besti = best.bestj ∧
  (∀ j, j < m → runLen s j ≤ best.bestsize) ∧
  best.besti + best.bestsize ≤ s.length

/-! ## Theorems

### The name normalizer (claims C1, C7) -/

theorem toNat_ofNat_valid (n : Nat) (h : n.isValidChar) : (Char.ofNat n).toNat = n := by
  simp [Char.ofNat, h, Char.ofNatAux, Char.toNat, UInt32.toNat]

theorem toLower_toLower (c : Char) : c.toLower.toLower = c.toLower := by
  unfold Char.toLower
  by_cases h : c.toNat ≥ 65 ∧ c.toNat ≤ 90
  · rw [if_pos h]
    have hv : (c.toNat + 32).isValidChar := Or.inl (by omega)
    have ht : (Char.ofNat (c.toNat + 32)).toNat = c.toNat + 32 := toNat_ofNat_valid _ hv
    rw [if_neg (by omega)]
  · rw [if_neg h, if_neg h]

theorem mem_replaceL (old new : List Char) (s : List Char) :
    ∀ c ∈ replaceL old new s, c ∈ new ∨ c ∈ s := by
  induction s using replaceL.induct old new with
  | case1 => intro c hc; simp [replaceL] at hc
  | case2 c rest h ih =>
    intro x hx
    rw [replaceL, dif_pos h] at hx
    rcases List.mem_append.mp hx with hx | hx
    · exact Or.inl hx
    · rcases ih x hx with hx | hx
      · exact Or.inl hx
      · exact Or.inr (List.drop_subset _ _ hx)
  | case3 c rest h ih =>
    intro x hx
    rw [replaceL, dif_neg h] at hx
    rcases List.mem_cons.mp hx with hx | hx
    · exact Or.inr (hx ▸ List.mem_cons_self _ _)
    · rcases ih x hx with hx | hx
      · exact Or.inl hx
      · exact Or.inr (List.mem_cons_of_mem _ hx)

theorem replaceL_eq_self (old new : List Char) (s : List Char) (h : ¬ old <:+: s) :
    replaceL old new s = s := by
  induction s using replaceL.induct old new with
  | case1 => rw [replaceL]
  | case2 c rest hp ih =>
    exact absurd ((List.isPrefixOf_iff_prefix.mp hp.2).isInfix) h
  | case3 c rest hp ih =>
    rw [replaceL, dif_neg hp, ih (fun hi => h (hi.trans (List.suffix_cons _ _).isInfix))]

theorem mem_foldl_replace (ps : List (List Char × List Char)) :
    ∀ s c, c ∈ ps.foldl (fun acc p => replaceL p.1 p.2 acc) s →
      (∃ p ∈ ps, c ∈ p.2) ∨ c ∈ s := by
  induction ps with
  | nil => intro s c hc; exact Or.inr hc
  | cons p ps ih =>
    intro s c hc
    rcases ih _ c hc with h | h
    · exact Or.inl (by obtain ⟨q, hq, hcq⟩ := h; exact ⟨q, List.mem_cons_of_mem _ hq, hcq⟩)
    · rcases mem_replaceL p.1 p.2 s c h with h | h
      · exact Or.inl ⟨p, List.mem_cons_self _ _, h⟩
      · exact Or.inr h

theorem foldl_replace_eq_self (ps : List (List Char × List Char)) (s : List Char)
    (h : ∀ p ∈ ps, ¬ p.1 <:+: s) :
    ps.foldl (fun acc p => replaceL p.1 p.2 acc) s = s := by
  induction ps with
  | nil => rfl
  | cons p ps ih =>
    have h1 : replaceL p.1 p.2 s = s :=
      replaceL_eq_self _ _ _ (h p (List.mem_cons_self _ _))
    simp only [List.foldl_cons, h1]
    exact ih (fun q hq => h q (List.mem_cons_of_mem _ hq))

theorem mem_applyReplacements (s : List Char) :
    ∀ c ∈ applyReplacements s, (∃ p ∈ replacements, c ∈ p.2) ∨ c ∈ s :=
  mem_foldl_replace replacements s

theorem applyReplacements_eq_self (s : List Char)
    (h : ∀ p ∈ replacements, ¬ p.1 <:+: s) : applyReplacements s = s :=
  foldl_replace_eq_self replacements s h

theorem mem_collapseWS (s : List Char) :
    ∀ c ∈ collapseWS s, c = ' ' ∨ (c ∈ s ∧ pyIsSpace c = false) := by
  induction s using collapseWS.induct with
  | case1 => intro c hc; simp [collapseWS] at hc
  | case2 c rest hsp ih =>
    intro x hx
    rw [collapseWS, if_pos hsp] at hx
    rcases List.mem_cons.mp hx with hx | hx
    · exact Or.inl hx
    · rcases ih x hx with hx | ⟨hm, hs⟩
      · exact Or.inl hx
      · exact Or.inr ⟨List.mem_cons_of_mem _ (List.dropWhile_sublist _ |>.subset hm), hs⟩
  | case3 c rest hsp ih =>
    intro x hx
    rw [collapseWS, if_neg hsp] at hx
    rcases List.mem_cons.mp hx with hx | hx
    · exact Or.inr ⟨hx ▸ List.mem_cons_self _ _, hx ▸ Bool.of_not_eq_true hsp⟩
    · rcases ih x hx with hx | ⟨hm, hs⟩
      · exact Or.inl hx
      · exact Or.inr ⟨List.mem_cons_of_mem _ hm, hs⟩

theorem head_dropWhile_not (p : Char → Bool) :
    ∀ (l : List Char) (c : Char), (l.dropWhile p).head? = some c → p c = false := by
  intro l
  induction l with
  | nil => intro c hc; simp at hc
  | cons a l ih =>
    intro c hc
    rw [List.dropWhile_cons] at hc
    by_cases ha : p a
    · rw [if_pos ha] at hc; exact ih c hc
    · rw [if_neg ha] at hc
      simp at hc
      exact hc ▸ Bool.of_not_eq_true ha

theorem head_collapseWS (l : List Char)
    (hl : ∀ c, l.head? = some c → pyIsSpace c = false) :
    ∀ c, (collapseWS l).head? = some c → pyIsSpace c = false := by
  cases l with
  | nil => intro c hc; simp [collapseWS] at hc
  | cons a l =>
    intro c hc
    have ha : pyIsSpace a = false := hl a rfl
    rw [collapseWS, if_neg (by simp [ha])] at hc
    simp at hc
    exact hc ▸ ha

theorem chain'_collapseWS (s : List Char) :
    (collapseWS s).Chain' (fun x y => ¬(pyIsSpace x = true ∧ pyIsSpace y = true)) := by
  induction s using collapseWS.induct with
  | case1 => rw [collapseWS]; exact List.chain'_nil
  | case2 c rest hsp ih =>
    rw [collapseWS, if_pos hsp]
    rw [List.chain'_cons']
    refine ⟨?_, ih⟩
    intro y hy
    have : pyIsSpace y = false :=
      head_collapseWS _ (head_dropWhile_not pyIsSpace rest) y hy
    simp [this]
  | case3 c rest hsp ih =>
    rw [collapseWS, if_neg hsp]
    rw [List.chain'_cons']
    refine ⟨?_, ih⟩
    intro y hy
    simp [Bool.of_not_eq_true hsp]

theorem dropWhile_eq_self_of_head (p : Char → Bool) (l : List Char)
    (h : ∀ c, l.head? = some c → p c = false) : l.dropWhile p = l := by
  cases l with
  | nil => rfl
  | cons a l => rw [List.dropWhile_cons, if_neg (by simp [h a rfl])]

theorem collapseWS_eq_self (l : List Char)
    (h1 : l.Chain' (fun x y => ¬(pyIsSpace x = true ∧ pyIsSpace y = true)))
    (h2 : ∀ c ∈ l, pyIsSpace c = true → c = ' ') : collapseWS l = l := by
  induction l with
  | nil => rw [collapseWS]
  | cons c rest ih =>
    rw [List.chain'_cons'] at h1
    by_cases hc : pyIsSpace c = true
    · rw [collapseWS, if_pos hc]
      have hr : rest.dropWhile pyIsSpace = rest := by
        refine dropWhile_eq_self_of_head _ _ ?_
        intro x hx
        have := h1.1 x hx
        rcases Bool.eq_false_or_eq_true (pyIsSpace x) with h | h
        · exact absurd ⟨hc, h⟩ this
        · exact h
      rw [hr, h2 c (List.mem_cons_self _ _) hc]
      rw [ih h1.2 (fun x hx => h2 x (List.mem_cons_of_mem _ hx))]
    · rw [collapseWS, if_neg hc]
      rw [ih h1.2 (fun x hx => h2 x (List.mem_cons_of_mem _ hx))]

theorem dropWhile_idem (p : Char → Bool) (l : List Char) :
    (l.dropWhile p).dropWhile p = l.dropWhile p :=
  dropWhile_eq_self_of_head p _ (head_dropWhile_not p l)

theorem stripBack_front (l : List Char) :
    (l.reverse.dropWhile pyIsSpace).reverse <+: l := by
  have h := List.dropWhile_suffix (l := l.reverse) pyIsSpace
  have := List.reverse_prefix.mpr h
  simpa using this

theorem stripL_part (s : List Char) : stripL s <:+: s := by
  unfold stripL
  exact (stripBack_front _).isInfix.trans (List.dropWhile_suffix pyIsSpace).isInfix

theorem head_of_prefix (l₁ l₂ : List Char) (h : l₁ <+: l₂) (c : Char)
    (hc : l₁.head? = some c) : l₂.head? = some c := by
  obtain ⟨t, rfl⟩ := h
  cases l₁ with
  | nil => simp at hc
  | cons a l => simp at hc ⊢; exact hc

theorem stripL_idem (s : List Char) : stripL (stripL s) = stripL s := by
  unfold stripL
  set f := fun l : List Char => l.dropWhile pyIsSpace with hf
  set g := fun l : List Char => (l.reverse.dropWhile pyIsSpace).reverse with hg
  show g (f (g (f s))) = g (f s)
  have hfg : ∀ l, f (g (f l)) = g (f l) := by
    intro l
    refine dropWhile_eq_self_of_head _ _ ?_
    intro c hc
    have hp : g (f l) <+: f l := stripBack_front (f l)
    have : (f l).head? = some c := head_of_prefix _ _ hp c hc
    exact head_dropWhile_not pyIsSpace l c this
  rw [hfg]
  show ((g (f s)).reverse.dropWhile pyIsSpace).reverse = g (f s)
  rw [hg]
  simp only [List.reverse_reverse]
  rw [dropWhile_idem]

theorem toLowerL_eq_self (s : List Char) (h : ∀ c ∈ s, c.toLower = c) :
    toLowerL s = s := by
  unfold toLowerL
  induction s with
  | nil => rfl
  | cons a l ih =>
    rw [List.map_cons, h a (List.mem_cons_self _ _),
      ih (fun c hc => h c (List.mem_cons_of_mem _ hc))]

theorem replacement_targets_lower :
    ∀ p ∈ replacements, ∀ c ∈ p.2, c.toLower = c := by
  decide

theorem normalize_char_lower :
    ∀ s : List Char, ∀ c ∈ normalize_school_name (some s), c.toLower = c := by
  intro s c hc
  simp only [normalize_school_name] at hc
  have h1 : c ∈ collapseWS (stripPunct (applyReplacements (stripL (toLowerL s)))) :=
    (stripL_part _).subset hc
  rcases mem_collapseWS _ c h1 with h | ⟨h2, _⟩
  · subst h; decide
  · rw [stripPunct] at h2
    have h3 : c ∈ applyReplacements (stripL (toLowerL s)) := List.mem_of_mem_filter h2
    rcases mem_applyReplacements _ c h3 with ⟨p, hp, hcp⟩ | h4
    · exact replacement_targets_lower p hp c hcp
    · have h5 : c ∈ toLowerL s := (stripL_part _).subset h4
      obtain ⟨c0, _, rfl⟩ := List.mem_map.mp h5
      exact toLower_toLower c0

theorem normalize_char_keep :
    ∀ s : List Char, ∀ c ∈ normalize_school_name (some s),
      (isWordChar c || pyIsSpace c) = true := by
  intro s c hc
  simp only [normalize_school_name] at hc
  have h1 : c ∈ collapseWS (stripPunct (applyReplacements (stripL (toLowerL s)))) :=
    (stripL_part _).subset hc
  rcases mem_collapseWS _ c h1 with h | ⟨h2, _⟩
  · subst h; decide
  · rw [stripPunct] at h2
    exact (List.mem_filter.mp h2).2

theorem normalize_space_is_space :
    ∀ s : List Char, ∀ c ∈ normalize_school_name (some s),
      pyIsSpace c = true → c = ' ' := by
  intro s c hc hsp
  simp only [normalize_school_name] at hc
  have h1 : c ∈ collapseWS (stripPunct (applyReplacements (stripL (toLowerL s)))) :=
    (stripL_part _).subset hc
  rcases mem_collapseWS _ c h1 with h | ⟨_, h2⟩
  · exact h
  · rw [hsp] at h2; cases h2

theorem normalize_chain (s : List Char) :
    (normalize_school_name (some s)).Chain'
      (fun x y => ¬(pyIsSpace x = true ∧ pyIsSpace y = true)) := by
  simp only [normalize_school_name]
  obtain ⟨t, u, heq⟩ := stripL_part (collapseWS (stripPunct (applyReplacements (stripL (toLowerL s)))))
  have hch := chain'_collapseWS (stripPunct (applyReplacements (stripL (toLowerL s))))
  rw [← heq] at hch
  exact hch.left_of_append.right_of_append

unseal replaceL collapseWS in
/-- Claim C1 counterexample: `normalize_school_name` is not idempotent.
On `"a .school"` the replacement pass sees no pattern (the dot breaks
`" school"`), punctuation stripping then creates one, and the second
application removes it: `"a .school" -> "a school" -> "a"`. -/
theorem normalize_not_idempotent :
    normalize_school_name (some (normalize_school_name (some "a .school".toList))) ≠
      normalize_school_name (some "a .school".toList) := by
  decide

/-- Claim C1, amended: `normalize_school_name` is a pure function of its
input, and it is idempotent on every input whose normalized form contains
none of the replacement patterns as a substring (the counterexample
`"a .school"` normalizes to `"a school"`, which still contains
`" school"`; on such outputs a second pass keeps rewriting). -/
theorem normalize_idempotent (s : List Char)
    (h : ∀ p ∈ replacements, ¬ p.1 <:+: normalize_school_name (some s)) :
    normalize_school_name (some (normalize_school_name (some s))) =
      normalize_school_name (some s) := by
  have hlow : toLowerL (normalize_school_name (some s)) = normalize_school_name (some s) :=
    toLowerL_eq_self _ (normalize_char_lower s)
  have hstrip : stripL (normalize_school_name (some s)) = normalize_school_name (some s) := by
    simp only [normalize_school_name]
    exact stripL_idem _
  have hrepl : applyReplacements (normalize_school_name (some s)) =
      normalize_school_name (some s) := applyReplacements_eq_self _ h
  have hpunct : stripPunct (normalize_school_name (some s)) =
      normalize_school_name (some s) :=
    List.filter_eq_self.mpr (normalize_char_keep s)
  have hcoll : collapseWS (normalize_school_name (some s)) =
      normalize_school_name (some s) :=
    collapseWS_eq_self _ (normalize_chain s) (normalize_space_is_space s)
  conv_lhs => rw [normalize_school_name]
  rw [hlow, hstrip, hrepl, hpunct, hcoll, hstrip]

unseal replaceL collapseWS in
/-- Witness for the amended C1 theorem at `"washington es"`, whose
normalized form contains no replacement pattern. -/
theorem normalize_idempotent_witness :
    normalize_school_name (some (normalize_school_name (some "washington es".toList))) =
      normalize_school_name (some "washington es".toList) :=
  normalize_idempotent "washington es".toList (by decide)

unseal replaceL collapseWS in
/-- Claim C7: `normalize_school_name` yields the empty string on a
null/absent input and maps the spec's ordering vectors as stated:
`"Washington Elementary School" -> "washington es"`,
`"Lincoln Middle School" -> "lincoln ms"`,
`"Central High School" -> "central hs"`. -/
theorem normalize_vectors :
    normalize_school_name none = "".toList ∧
    normalize_school_name (some "Washington Elementary School".toList) =
      "washington es".toList ∧
    normalize_school_name (some "Lincoln Middle School".toList) = "lincoln ms".toList ∧
    normalize_school_name (some "Central High School".toList) = "central hs".toList := by
  refine ⟨rfl, ?_, ?_, ?_⟩ <;> decide

/-! ### Dictionaries and the mapping combiner (claim C5) -/

theorem lookupD_nil {α : Type} (key : List Char) :
    lookupD ([] : List (List Char × α)) key = none := rfl

theorem lookupD_cons {α : Type} (k : List Char) (v : α) (rest : List (List Char × α))
    (key : List Char) :
    lookupD ((k, v) :: rest) key = if k = key then some v else lookupD rest key := rfl

theorem lookupD_append {α : Type} (d1 d2 : List (List Char × α)) (key : List Char) :
    lookupD (d1 ++ d2) key =
      match lookupD d1 key with
      | some v => some v
      | none => lookupD d2 key := by
  induction d1 with
  | nil => rw [List.nil_append, lookupD_nil]
  | cons p rest ih =>
    obtain ⟨k, v⟩ := p
    by_cases hk : k = key
    · rw [List.cons_append, lookupD_cons, if_pos hk, lookupD_cons, if_pos hk]
    · rw [List.cons_append, lookupD_cons, if_neg hk, lookupD_cons, if_neg hk, ih]

theorem lookupD_not_mem {α : Type} (d : List (List Char × α)) (key : List Char)
    (h : key ∉ d.map Prod.fst) : lookupD d key = none := by
  induction d with
  | nil => rfl
  | cons p rest ih =>
    obtain ⟨k, v⟩ := p
    simp only [List.map_cons, List.mem_cons] at h
    push_neg at h
    rw [lookupD_cons, if_neg (fun he => h.1 he.symm)]
    exact ih h.2

theorem lookupD_map_overwrite {α : Type} (d : List (List Char × α)) (k : List Char) (v : α)
    (key : List Char) :
    lookupD (d.map (fun p => if p.1 = k then (p.1, v) else p)) key =
      if key = k then (if k ∈ d.map Prod.fst then some v else none)
      else lookupD d key := by
  rcases eq_or_ne key k with rfl | hkk
  · rw [if_pos rfl]
    induction d with
    | nil => rw [List.map_nil, lookupD_nil, if_neg (by simp)]
    | cons p rest ih =>
      obtain ⟨k0, v0⟩ := p
      rw [List.map_cons]
      rcases eq_or_ne k0 key with rfl | h0
      · rw [show (if (k0, v0).1 = k0 then ((k0, v0).1, v) else (k0, v0)) = (k0, v) by simp,
          lookupD_cons, if_pos rfl, if_pos (by rw [List.map_cons]; exact List.mem_cons_self _ _)]
      · rw [show (if (k0, v0).1 = key then ((k0, v0).1, v) else (k0, v0)) = (k0, v0) by
            simp [h0],
          lookupD_cons, if_neg h0, ih]
        have hmem : (key ∈ List.map Prod.fst ((k0, v0) :: rest)) ↔
            key ∈ List.map Prod.fst rest := by
          rw [List.map_cons, List.mem_cons]
          constructor
          · rintro (h | h)
            · exact absurd h.symm h0
            · exact h
          · exact Or.inr
        rw [if_congr hmem rfl rfl]
  · rw [if_neg hkk]
    induction d with
    | nil => rw [List.map_nil]
    | cons p rest ih =>
      obtain ⟨k0, v0⟩ := p
      rw [List.map_cons]
      rcases eq_or_ne k0 k with rfl | h0
      · rw [show (if (k0, v0).1 = k0 then ((k0, v0).1, v) else (k0, v0)) = (k0, v) by simp,
          lookupD_cons, lookupD_cons, if_neg (fun he : k0 = key => hkk he.symm),
          if_neg (fun he : k0 = key => hkk he.symm), ih]
      · rw [show (if (k0, v0).1 = k then ((k0, v0).1, v) else (k0, v0)) = (k0, v0) by
            simp [h0],
          lookupD_cons, lookupD_cons]
        rcases eq_or_ne k0 key with rfl | hk0
        · rw [if_pos rfl, if_pos rfl]
        · rw [if_neg hk0, if_neg hk0, ih]

theorem lookupD_dictUpdate {α : Type} (d : List (List Char × α)) (k : List Char) (v : α)
    (key : List Char) :
    lookupD (dictUpdate d (k, v)) key = if key = k then some v else lookupD d key := by
  unfold dictUpdate
  by_cases hc : k ∈ d.map Prod.fst
  · rw [if_pos (List.elem_iff.mpr hc)]
    rw [lookupD_map_overwrite, if_pos hc]
  · rw [if_neg (fun hcon => hc (List.elem_iff.mp hcon))]
    rw [lookupD_append]
    rcases h : lookupD d key with _ | v0
    · show lookupD [(k, v)] key = if key = k then some v else none
      by_cases hk : key = k
      · rw [if_pos hk, lookupD_cons, if_pos hk.symm]
      · rw [if_neg hk, lookupD_cons, if_neg (fun he => hk he.symm), lookupD_nil]
    · show some v0 = if key = k then some v else some v0
      by_cases hk : key = k
      · subst hk
        rw [lookupD_not_mem d key hc] at h
        cases h
      · rw [if_neg hk]

theorem lookupD_dictMerge {α : Type} (a b : List (List Char × α))
    (hb : (b.map Prod.fst).Nodup) (key : List Char) :
    lookupD (dictMerge a b) key = (lookupD b key).or (lookupD a key) := by
  induction b generalizing a with
  | nil => rw [lookupD_nil]; rfl
  | cons p rest ih =>
    obtain ⟨k, v⟩ := p
    simp only [List.map_cons, List.nodup_cons] at hb
    have hstep : dictMerge a ((k, v) :: rest) = dictMerge (dictUpdate a (k, v)) rest := rfl
    rw [hstep, ih _ hb.2, lookupD_cons]
    by_cases hk : k = key
    · rw [lookupD_not_mem rest key (hk ▸ hb.1), if_pos hk]
      show lookupD (dictUpdate a (k, v)) key = some v
      rw [lookupD_dictUpdate, if_pos hk.symm]
    · rw [if_neg hk]
      rcases h : lookupD rest key with _ | v0
      · show lookupD (dictUpdate a (k, v)) key = lookupD a key
        rw [lookupD_dictUpdate, if_neg (fun he => hk he.symm)]
      · rfl

/-- Claim C5: the combination `{**cached_matches, **fuzzy_matches,
**ollama_mapping}` at line 225 of `ollama_data_merger.py` (the
`dictMerge (dictMerge cached fuzzy) resolver` used by `finalMapping`) is
the dictionary union with later tiers winning on key collision, and the
spec's concrete instance combines to exactly `{"a": "y", "b": "z"}`. -/
theorem mapping_combiner_precedence :
    (∀ (cached fuzzy resolver : List (List Char × List Char)),
      (fuzzy.map Prod.fst).Nodup → (resolver.map Prod.fst).Nodup →
      ∀ key, lookupD (dictMerge (dictMerge cached fuzzy) resolver) key =
        ((lookupD resolver key).or ((lookupD fuzzy key).or (lookupD cached key)))) ∧
    dictMerge (dictMerge [("a".toList, "x".toList)]
        [("a".toList, "y".toList), ("b".toList, "y".toList)])
        [("b".toList, "z".toList)] =
      [("a".toList, "y".toList), ("b".toList, "z".toList)] := by
  constructor
  · intro cached fuzzy resolver hf hr key
    rw [lookupD_dictMerge _ _ hr, lookupD_dictMerge _ _ hf]
  · decide

/-- Witness for the C5 theorem: the general part applied to the spec's
concrete tiers at both keys. -/
theorem mapping_combiner_precedence_witness :
    lookupD (dictMerge (dictMerge [("a".toList, "x".toList)]
        [("a".toList, "y".toList), ("b".toList, "y".toList)])
        [("b".toList, "z".toList)]) "a".toList = some "y".toList ∧
    lookupD (dictMerge (dictMerge [("a".toList, "x".toList)]
        [("a".toList, "y".toList), ("b".toList, "y".toList)])
        [("b".toList, "z".toList)]) "b".toList = some "z".toList := by
  constructor
  · rw [mapping_combiner_precedence.1 [("a".toList, "x".toList)]
      [("a".toList, "y".toList), ("b".toList, "y".toList)] [("b".toList, "z".toList)]
      (by decide) (by decide) "a".toList]
    decide
  · rw [mapping_combiner_precedence.1 [("a".toList, "x".toList)]
      [("a".toList, "y".toList), ("b".toList, "y".toList)] [("b".toList, "z".toList)]
      (by decide) (by decide) "b".toList]
    decide

/-! ### The dataset merger (claims C2, C8, C9) -/

theorem excel_filter_length_le_one (excel : List ExcelRow) (key : List Char)
    (h : (excel.map excelNorm).Nodup) :
    (excel.filter (fun t => excelNorm t == key)).length ≤ 1 := by
  induction excel with
  | nil => simp
  | cons r rest ih =>
    rw [List.map_cons, List.nodup_cons] at h
    rw [List.filter_cons]
    by_cases hr : (excelNorm r == key) = true
    · rw [if_pos hr]
      have hnil : rest.filter (fun t => excelNorm t == key) = [] := by
        rw [List.filter_eq_nil_iff]
        intro t ht hcon
        have h1 : excelNorm t = key := by simpa using hcon
        have h2 : excelNorm r = key := by simpa using hr
        have h3 : excelNorm t ∈ List.map excelNorm rest := List.mem_map_of_mem excelNorm ht
        rw [h1, ← h2] at h3
        exact h.1 h3
      rw [hnil]
      exact Nat.le_refl 1
    · rw [if_neg hr]
      exact Nat.le_trans (ih h.2) (Nat.le_refl 1)

theorem sum_map_ones {β : Type} (l : List β) (g : β → Nat) (h : ∀ r ∈ l, g r = 1) :
    (l.map g).sum = l.length := by
  induction l with
  | nil => rfl
  | cons a rest ih =>
    rw [List.map_cons, List.sum_cons, h a (List.mem_cons_self _ _), List.length_cons,
      ih (fun x hx => h x (List.mem_cons_of_mem _ hx))]
    omega

/-- Claim C2, amended: when the target table's normalized keys are
pairwise distinct, the left join of `process_dataset` yields exactly one
output row per placeholder-filtered source row.  (Without that
hypothesis a source row is repeated once per matching target row, which
the counterexample exhibits.) -/
theorem merger_totality (csv : List CsvRow) (excel : List ExcelRow)
    (cached ollama : List (List Char × List Char))
    (hN : (excel.map excelNorm).Nodup) :
    (process_dataset csv excel cached ollama).length = (filterTests csv).length := by
  unfold process_dataset
  rw [List.length_flatMap]
  apply sum_map_ones
  intro r hr
  show (let key := mappedNameOf (finalMapping csv excel cached ollama) (csvNorm r);
    let ms := excel.filter (fun t => excelNorm t == key);
    if ms.isEmpty = true then
      [MergedRow.mk r (csvOrig r) (csvNorm r) key none]
    else ms.map (fun t => MergedRow.mk r (csvOrig r) (csvNorm r) key (some t))).length = 1
  dsimp only
  by_cases hms : (excel.filter
      (fun t => excelNorm t == mappedNameOf (finalMapping csv excel cached ollama)
        (csvNorm r))).isEmpty = true
  · rw [if_pos hms]
    rfl
  · rw [if_neg hms, List.length_map]
    have h1 : 1 ≤ (excel.filter (fun t => excelNorm t ==
        mappedNameOf (finalMapping csv excel cached ollama) (csvNorm r))).length := by
      rcases hq : excel.filter (fun t => excelNorm t ==
          mappedNameOf (finalMapping csv excel cached ollama) (csvNorm r)) with _ | ⟨t, ts⟩
      · rw [hq] at hms
        simp at hms
      · simp
    have h2 := excel_filter_length_le_one excel
      (mappedNameOf (finalMapping csv excel cached ollama) (csvNorm r)) hN
    omega

unseal Nat.gcd Rat.mul Rat.inv Rat.add Rat.sub replaceL collapseWS extendLeft extendRight extendLeftJunk extendRightJunk List.merge List.mergeSort in
/-- Claim C2 counterexample: with two target rows sharing the normalized
key `"ab"`, the single source row `"ab"` is joined twice — the merged
table has 2 rows for a 1-row source, refuting totality for arbitrary
target tables. -/
theorem merger_totality_counterexample :
    (process_dataset [CsvRow.mk (some "ab".toList) 0]
        [ExcelRow.mk (some "ab".toList) 10, ExcelRow.mk (some "ab".toList) 11]
        [] []).length = 2 ∧
    (filterTests [CsvRow.mk (some "ab".toList) 0]).length = 1 := by
  constructor <;> decide

unseal Nat.gcd Rat.mul Rat.inv Rat.add Rat.sub replaceL collapseWS extendLeft extendRight extendLeftJunk extendRightJunk List.merge List.mergeSort in
/-- Witness for the amended C2 theorem: a source row and two target rows
with distinct normalized keys merge to exactly one row per source row. -/
theorem merger_totality_witness :
    (process_dataset [CsvRow.mk (some "ab".toList) 0]
        [ExcelRow.mk (some "ab".toList) 10, ExcelRow.mk (some "cd".toList) 11]
        [] []).length =
      (filterTests [CsvRow.mk (some "ab".toList) 0]).length :=
  merger_totality [CsvRow.mk (some "ab".toList) 0]
    [ExcelRow.mk (some "ab".toList) 10, ExcelRow.mk (some "cd".toList) 11]
    [] [] (by decide)

/-- Claim C8: every output row's `Mapped_Normalized_Name` is the final
mapping's value at the row's normalized name when the mapping has that
key, and the normalized name itself otherwise (`map` + `fillna`); and a
filtered-in source row whose mapped key matches no target key still
appears in the output, with all target-sourced columns null. -/
theorem mapped_name_fallback (csv : List CsvRow) (excel : List ExcelRow)
    (cached ollama : List (List Char × List Char)) :
    (∀ row ∈ process_dataset csv excel cached ollama,
      row.norm = csvNorm row.src ∧
      row.mapped =
        match lookupD (finalMapping csv excel cached ollama) row.norm with
        | some v => v
        | none => row.norm) ∧
    (∀ r ∈ filterTests csv,
      (excel.filter (fun t => excelNorm t ==
        mappedNameOf (finalMapping csv excel cached ollama) (csvNorm r))).isEmpty = true →
      MergedRow.mk r (csvOrig r) (csvNorm r)
        (mappedNameOf (finalMapping csv excel cached ollama) (csvNorm r)) none ∈
        process_dataset csv excel cached ollama) := by
  constructor
  · intro row hrow
    unfold process_dataset at hrow
    rw [List.mem_flatMap] at hrow
    obtain ⟨r, hr, hmem⟩ := hrow
    have hfields : row.src = r ∧ row.norm = csvNorm r ∧
        row.mapped = mappedNameOf (finalMapping csv excel cached ollama) (csvNorm r) := by
      by_cases hms : (excel.filter (fun t => excelNorm t ==
          mappedNameOf (finalMapping csv excel cached ollama) (csvNorm r))).isEmpty = true
      · rw [if_pos hms, List.mem_singleton] at hmem
        rw [hmem]
        exact ⟨rfl, rfl, rfl⟩
      · rw [if_neg hms, List.mem_map] at hmem
        obtain ⟨t, _, hteq⟩ := hmem
        rw [← hteq]
        exact ⟨rfl, rfl, rfl⟩
    refine ⟨?_, ?_⟩
    · rw [hfields.2.1, hfields.1]
    · rw [hfields.2.2, hfields.2.1]
      unfold mappedNameOf
      rcases lookupD (finalMapping csv excel cached ollama) (csvNorm r) with _ | v
      · rfl
      · rfl
  · intro r hr hempty
    unfold process_dataset
    rw [List.mem_flatMap]
    refine ⟨r, hr, ?_⟩
    rw [if_pos hempty]
    exact List.mem_singleton.mpr rfl

unseal Nat.gcd Rat.mul Rat.inv Rat.add Rat.sub replaceL collapseWS extendLeft extendRight extendLeftJunk extendRightJunk List.merge List.mergeSort in
/-- Witness for the C8 theorem: a source row with no matching target
key appears in the output joined against nothing. -/
theorem mapped_name_fallback_witness :
    MergedRow.mk (CsvRow.mk (some "ab".toList) 0) (some "ab".toList) "ab".toList
      "ab".toList none ∈
      process_dataset [CsvRow.mk (some "ab".toList) 0] [] [] [] := by
  have h := (mapped_name_fallback [CsvRow.mk (some "ab".toList) 0] [] [] []).2
    (CsvRow.mk (some "ab".toList) 0) (by decide) (by decide)
  exact h

/-- Claim C9: `process_dataset` removes, before any normalization,
exactly the source rows whose raw `School_Name` is an exact member of
the placeholder list; such rows never reach the merged output, and every
other source row produces at least one output row. -/
theorem placeholder_filtering (csv : List CsvRow) (excel : List ExcelRow)
    (cached ollama : List (List Char × List Char)) :
    (∀ s, isTestSchool s = true ↔ ∃ n ∈ test_schools, s = some n) ∧
    (∀ r, r ∈ filterTests csv ↔ r ∈ csv ∧ isTestSchool r.school_name = false) ∧
    (∀ row ∈ process_dataset csv excel cached ollama,
      isTestSchool row.src.school_name = false) ∧
    (∀ r ∈ csv, isTestSchool r.school_name = false →
      ∃ row ∈ process_dataset csv excel cached ollama, row.src = r) := by
  refine ⟨?_, ?_, ?_, ?_⟩
  · intro s
    rcases s with _ | n
    · simp [isTestSchool]
    · simp only [isTestSchool]
      constructor
      · intro h
        exact ⟨n, List.elem_iff.mp h, rfl⟩
      · rintro ⟨m, hm, he⟩
        cases he
        exact List.elem_iff.mpr hm
  · intro r
    unfold filterTests
    rw [List.mem_filter]
    constructor
    · rintro ⟨h1, h2⟩
      exact ⟨h1, by simpa using h2⟩
    · rintro ⟨h1, h2⟩
      exact ⟨h1, by simpa using h2⟩
  · intro row hrow
    unfold process_dataset at hrow
    rw [List.mem_flatMap] at hrow
    obtain ⟨r, hr, hmem⟩ := hrow
    unfold filterTests at hr
    rw [List.mem_filter] at hr
    have hsrc : row.src = r := by
      by_cases hms : (excel.filter (fun t => excelNorm t ==
          mappedNameOf (finalMapping csv excel cached ollama) (csvNorm r))).isEmpty = true
      · rw [if_pos hms, List.mem_singleton] at hmem
        rw [hmem]
      · rw [if_neg hms, List.mem_map] at hmem
        obtain ⟨t, _, hteq⟩ := hmem
        rw [← hteq]
    rw [hsrc]
    simpa using hr.2
  · intro r hr htest
    unfold process_dataset
    have hr1 : r ∈ filterTests csv := by
      unfold filterTests
      rw [List.mem_filter]
      exact ⟨hr, by simpa using htest⟩
    by_cases hms : (excel.filter (fun t => excelNorm t ==
        mappedNameOf (finalMapping csv excel cached ollama) (csvNorm r))).isEmpty = true
    · exact ⟨MergedRow.mk r (csvOrig r) (csvNorm r)
        (mappedNameOf (finalMapping csv excel cached ollama) (csvNorm r)) none,
        List.mem_flatMap.mpr ⟨r, hr1, by rw [if_pos hms]; exact List.mem_singleton.mpr rfl⟩,
        rfl⟩
    · rcases hq : excel.filter (fun t => excelNorm t ==
          mappedNameOf (finalMapping csv excel cached ollama) (csvNorm r)) with _ | ⟨t, ts⟩
      · rw [hq] at hms
        simp at hms
      · refine ⟨MergedRow.mk r (csvOrig r) (csvNorm r)
          (mappedNameOf (finalMapping csv excel cached ollama) (csvNorm r)) (some t),
          List.mem_flatMap.mpr ⟨r, hr1, ?_⟩, rfl⟩
        rw [if_neg hms, hq]
        exact List.mem_map_of_mem _ (List.mem_cons_self _ _)

unseal Nat.gcd Rat.mul Rat.inv Rat.add Rat.sub replaceL collapseWS extendLeft extendRight extendLeftJunk extendRightJunk List.merge List.mergeSort in
/-- Witness for the C9 theorem: the placeholder row is removed and the
genuine row survives into the merged output. -/
theorem placeholder_filtering_witness :
    isTestSchool (some "Test Site Elementary School".toList) = true ∧
    (∃ row ∈ process_dataset
        [CsvRow.mk (some "Test Site Elementary School".toList) 0,
         CsvRow.mk (some "ab".toList) 1] [] [] [],
      row.src = CsvRow.mk (some "ab".toList) 1) ∧
    (∀ row ∈ process_dataset
        [CsvRow.mk (some "Test Site Elementary School".toList) 0,
         CsvRow.mk (some "ab".toList) 1] [] [] [],
      isTestSchool row.src.school_name = false) := by
  refine ⟨by decide, ?_, ?_⟩
  · exact (placeholder_filtering
      [CsvRow.mk (some "Test Site Elementary School".toList) 0,
       CsvRow.mk (some "ab".toList) 1] [] [] []).2.2.2
      (CsvRow.mk (some "ab".toList) 1) (by decide) (by decide)
  · exact (placeholder_filtering
      [CsvRow.mk (some "Test Site Elementary School".toList) 0,
       CsvRow.mk (some "ab".toList) 1] [] [] []).2.2.1

/-! ### The resolver loop (claim C6) -/

theorem chunksOf_flatten {α : Type} (bs : Nat) (hbs : 0 < bs) (l : List α) :
    (chunksOf bs l).flatten = l := by
  induction l using chunksOf.induct bs with
  | case1 x hx =>
    rcases hx with hx | hx
    · rw [chunksOf, dif_pos (Or.inl hx), List.flatten_nil]
      exact (List.isEmpty_iff.mp hx).symm
    · omega
  | case2 x hx ih =>
    rw [chunksOf, dif_neg hx, List.flatten_cons, ih]
    exact List.take_append_drop bs x

theorem chunksOf_ne_nil {α : Type} (bs : Nat) (hbs : 0 < bs) (l : List α) :
    ∀ c ∈ chunksOf bs l, c ≠ [] := by
  induction l using chunksOf.induct bs with
  | case1 x hx =>
    rcases hx with hx | hx
    · rw [chunksOf, dif_pos (Or.inl hx)]
      intro c hc
      cases hc
    · omega
  | case2 x hx ih =>
    rw [chunksOf, dif_neg hx]
    intro c hc
    rcases List.mem_cons.mp hc with hc | hc
    · subst hc
      have hxne : x ≠ [] := fun he => hx (Or.inl (by simp [he]))
      rcases x with _ | ⟨a, x⟩
      · exact absurd rfl hxne
      · rcases bs with _ | bs
        · omega
        · simp
    · exact ih c hc

theorem gnmLoop_eq_chunks (oracle : List (List Char) → List (List Char) → List Char)
    (known csv : List (List Char)) (bs : Nat) (hbs : 0 < bs) :
    ∀ (i : Nat) (acc : List (List Char × JVal) × List (List (List Char))),
    gnmLoop oracle known csv bs i acc =
      (chunksOf bs (csv.drop i)).foldl
        (fun st chunk =>
          match parseResponse (oracle known chunk) with
          | some kvs => (kvs.foldl dictUpdate st.1, st.2 ++ [chunk])
          | none => (st.1, st.2 ++ [chunk]))
        acc := by
  have H : ∀ (m i : Nat), csv.length - i = m →
      ∀ acc, gnmLoop oracle known csv bs i acc =
      (chunksOf bs (csv.drop i)).foldl
        (fun st chunk =>
          match parseResponse (oracle known chunk) with
          | some kvs => (kvs.foldl dictUpdate st.1, st.2 ++ [chunk])
          | none => (st.1, st.2 ++ [chunk]))
        acc := by
    intro m
    induction m using Nat.strong_induction_on with
    | _ m ih =>
      intro i hm acc
      by_cases hlt : i < csv.length
      · rw [gnmLoop, dif_pos ⟨hlt, hbs⟩]
        have hdrop : csv.drop i ≠ [] := by
          intro he
          have := List.drop_eq_nil_iff.mp he
          omega
        have hchunk : chunksOf bs (csv.drop i) =
            (csv.drop i).take bs :: chunksOf bs ((csv.drop i).drop bs) := by
          rw [chunksOf, dif_neg]
          push_neg
          exact ⟨by simpa [List.isEmpty_iff] using hdrop, by omega⟩
        rw [hchunk, List.drop_drop]
        have hrec := ih (csv.length - (i + bs)) (by omega) (i + bs) rfl
        simp only [List.foldl_cons]
        rcases hp : parseResponse (oracle known ((csv.drop i).take bs)) with _ | kvs
        · exact hrec _
        · exact hrec _
      · rw [gnmLoop, dif_neg (fun hcon => hlt hcon.1)]
        rw [List.drop_eq_nil_of_le (by omega), chunksOf,
          dif_pos (Or.inl List.isEmpty_nil), List.foldl_nil]
  intro i acc
  exact H (csv.length - i) i rfl acc

theorem foldPair_split (oracle : List (List Char) → List (List Char) → List Char)
    (known : List (List Char)) (chunks : List (List (List Char))) :
    ∀ (m : List (List Char × JVal)) (q : List (List (List Char))),
    chunks.foldl
      (fun st chunk =>
        match parseResponse (oracle known chunk) with
        | some kvs => (kvs.foldl dictUpdate st.1, st.2 ++ [chunk])
        | none => (st.1, st.2 ++ [chunk]))
      (m, q) =
    (chunks.foldl
      (fun mm chunk =>
        match parseResponse (oracle known chunk) with
        | some kvs => kvs.foldl dictUpdate mm
        | none => mm) m,
     q ++ chunks) := by
  induction chunks with
  | nil => intro m q; rw [List.foldl_nil, List.foldl_nil, List.append_nil]
  | cons c rest ih =>
    intro m q
    simp only [List.foldl_cons]
    rcases hp : parseResponse (oracle known c) with _ | kvs
    · have hq : q ++ c :: rest = (q ++ [c]) ++ rest := by simp
      rw [hq]
      exact ih m (q ++ [c])
    · have hq : q ++ c :: rest = (q ++ [c]) ++ rest := by simp
      rw [hq]
      exact ih _ (q ++ [c])

theorem lookup_foldl_dictUpdate_eq (kvs : List (List Char × JVal)) :
    ∀ (m : List (List Char × JVal)) (n : List Char), n ∉ kvs.map Prod.fst →
    lookupD (kvs.foldl dictUpdate m) n = lookupD m n := by
  induction kvs with
  | nil => intro m n _; rfl
  | cons kv rest ih =>
    intro m n hn
    rw [List.map_cons, List.mem_cons] at hn
    push_neg at hn
    rw [List.foldl_cons, ih _ _ hn.2]
    obtain ⟨k, v⟩ := kv
    rw [lookupD_dictUpdate, if_neg hn.1]

theorem lookup_resolver_fold_none (oracle : List (List Char) → List (List Char) → List Char)
    (known : List (List Char)) (chunks : List (List (List Char))) :
    ∀ (m : List (List Char × JVal)) (n : List Char), lookupD m n = none →
    (∀ c ∈ chunks, ∀ kvs, parseResponse (oracle known c) = some kvs →
      n ∉ kvs.map Prod.fst) →
    lookupD (chunks.foldl
      (fun mm chunk =>
        match parseResponse (oracle known chunk) with
        | some kvs => kvs.foldl dictUpdate mm
        | none => mm) m) n = none := by
  induction chunks with
  | nil => intro m n hm _; exact hm
  | cons c rest ih =>
    intro m n hm h
    simp only [List.foldl_cons]
    rcases hp : parseResponse (oracle known c) with _ | kvs
    · exact ih m n hm (fun c2 hc2 => h c2 (List.mem_cons_of_mem _ hc2))
    · refine ih _ n ?_ (fun c2 hc2 => h c2 (List.mem_cons_of_mem _ hc2))
      rw [lookup_foldl_dictUpdate_eq kvs m n
        (h c (List.mem_cons_self _ _) kvs hp)]
      exact hm

/-- Claim C6: `get_name_mapping` splits the unknown names into
consecutive chunks of the batch size (15 by default at the call site),
issues exactly one resolver request per chunk, merges the parsed
mappings of the successful chunks, and skips a chunk whose response
fails to extract or parse without retrying and without aborting — when
every successful chunk maps only names of its own chunk (and the
unknown names are distinct, as the sorted-unique caller guarantees),
the names of a failed chunk are absent from the result. -/
theorem resolver_batching (oracle : List (List Char) → List (List Char) → List Char)
    (known csv : List (List Char)) (bs : Nat) (hbs : 0 < bs) :
    (get_name_mapping oracle known csv bs).2 = chunksOf bs csv ∧
    (get_name_mapping oracle known csv bs).1 =
      (chunksOf bs csv).foldl
        (fun m chunk =>
          match parseResponse (oracle known chunk) with
          | some kvs => kvs.foldl dictUpdate m
          | none => m) [] ∧
    (csv.Nodup →
      ∀ c ∈ chunksOf bs csv, parseResponse (oracle known c) = none →
      (∀ c2 ∈ chunksOf bs csv, ∀ kvs, parseResponse (oracle known c2) = some kvs →
        ∀ kv ∈ kvs, kv.1 ∈ c2) →
      ∀ n ∈ c, lookupD (get_name_mapping oracle known csv bs).1 n = none) := by
  have hrun : get_name_mapping oracle known csv bs =
      ((chunksOf bs csv).foldl
        (fun m chunk =>
          match parseResponse (oracle known chunk) with
          | some kvs => kvs.foldl dictUpdate m
          | none => m) [],
       chunksOf bs csv) := by
    unfold get_name_mapping
    rw [gnmLoop_eq_chunks oracle known csv bs hbs 0 ([], []), List.drop_zero,
      foldPair_split, List.nil_append]
  refine ⟨by rw [hrun], by rw [hrun], ?_⟩
  intro hnodup c hc hfail hkeys n hn
  rw [hrun]
  apply lookup_resolver_fold_none oracle known (chunksOf bs csv) [] n rfl
  intro c2 hc2 kvs hp hncon
  have hneq : c2 ≠ c := by
    intro he
    rw [he, hfail] at hp
    cases hp
  have hn2 : n ∈ c2 := by
    rw [List.mem_map] at hncon
    obtain ⟨kv, hkv, hkveq⟩ := hncon
    exact hkveq ▸ hkeys c2 hc2 kvs hp kv hkv
  have hflat : ((chunksOf bs csv).flatten).Nodup := by
    rw [chunksOf_flatten bs hbs csv]
    exact hnodup
  have hpw := (List.nodup_flatten.mp hflat).2
  have hdisj := hpw.forall (fun x y hxy => List.Disjoint.symm hxy) hc2 hc hneq
  exact hdisj hn2 hn

unseal chunksOf jparseVal jparseObjBody jparseMembers jparseArrBody jparseElems jstrLoop in
/-- Witness for the C6 theorem: 16 distinct names at batch size 15 give
two requests; the first chunk's response has no JSON object and is
skipped, the second parses, and the failed chunk's first name is absent
from the returned mapping. -/
theorem resolver_batching_witness :
    lookupD (get_name_mapping
      (fun _ chunk => if chunk.length = 15 then "no json here".toList
        else "\x7b\"p\": \"q\"\x7d".toList)
      ["official".toList]
      ("abcdefghijklmnop".toList.map (fun c => [c])) 15).1 ['a'] = none := by
  apply (resolver_batching
      (fun _ chunk => if chunk.length = 15 then "no json here".toList
        else "\x7b\"p\": \"q\"\x7d".toList)
      ["official".toList]
      ("abcdefghijklmnop".toList.map (fun c => [c])) 15 (by decide)).2.2
    (by decide)
    ("abcdefghijklmno".toList.map (fun c => [c]))
    (by decide) (by rfl)
  · intro c2 hc2 kvs hp kv hkv
    have hc2' : c2 = ("abcdefghijklmno".toList.map (fun c => [c])) ∨
        c2 = [['p']] := by
      have : chunksOf 15 ("abcdefghijklmnop".toList.map (fun c => [c])) =
          [("abcdefghijklmno".toList.map (fun c => [c])), [['p']]] := by decide
      rw [this] at hc2
      simpa using hc2
    rcases hc2' with rfl | rfl
    · rw [show parseResponse ((fun (_ : List (List Char)) chunk =>
          if List.length chunk = 15 then "no json here".toList
          else "\x7b\"p\": \"q\"\x7d".toList) ["official".toList]
          ("abcdefghijklmno".toList.map (fun c => [c]))) = none from rfl] at hp
      cases hp
    · rw [show parseResponse ((fun (_ : List (List Char)) chunk =>
          if List.length chunk = 15 then "no json here".toList
          else "\x7b\"p\": \"q\"\x7d".toList) ["official".toList]
          [['p']]) = some [("p".toList, JVal.jstr "q".toList)] from rfl] at hp
      cases hp
      rcases List.mem_singleton.mp hkv with rfl
      decide
  · decide

/-! ### The brace extractor (claims C4, C10) -/

theorem runScan_append_char (p : List Char) (c : Char) :
    runScan (p ++ [c]) = scanStep (runScan p) c := by
  simp [runScan, List.foldl_append]

theorem prefix_concat_cases (q l : List Char) (c : Char) (h : q <+: l ++ [c]) :
    q <+: l ∨ q = l ++ [c] := by
  rcases Nat.lt_or_ge q.length (l ++ [c]).length with hl | hl
  · left
    refine List.prefix_of_prefix_length_le h (List.prefix_append l [c]) ?_
    simpa using Nat.lt_succ_iff.mp (by simpa using hl)
  · right
    exact h.eq_of_length (Nat.le_antisymm h.length_le hl)

theorem dropWhile_head_false (p : Char → Bool) :
    ∀ (l : List Char) (c : Char) (d : List Char), l.dropWhile p = c :: d → p c = false := by
  intro l
  induction l with
  | nil => intro c d h; cases h
  | cons a l ih =>
    intro c d h
    rw [List.dropWhile_cons] at h
    by_cases hp : p a = true
    · rw [if_pos hp] at h
      exact ih c d h
    · rw [if_neg hp] at h
      cases h
      simpa using hp

theorem extractPost_cons (p : List Char) (c : Char) (rest : List Char)
    (r : Except ExtractErr (List Char)) (h : extractPost (p ++ [c]) rest r) :
    extractPost p (c :: rest) r := by
  cases r with
  | ok s =>
    obtain ⟨mid, rest2, hm, hs, hb, hv⟩ := h
    exact ⟨c :: mid, rest2, by simp [hm], by simp [hs], hb, hv⟩
  | error e =>
    cases e with
    | noBrace => exact h
    | noValid =>
      intro q hq hpre
      refine h q hq ?_
      simpa using hpre
    | badJson =>
      obtain ⟨s, mid, rest2, hm, hs, hb, hv⟩ := h
      exact ⟨s, c :: mid, rest2, by simp [hm], by simp [hs], hb, hv⟩

theorem extractLoop_spec :
    ∀ (rest : List Char) (bc : Int) (instr esc : Bool) (acc : List Char),
    acc ≠ [] →
    runScan acc.reverse = (bc, instr, esc) →
    (∀ q, q ≠ [] → q <+: acc.reverse → 1 ≤ (runScan q).1) →
    extractPost acc.reverse rest (extractLoop rest bc instr esc acc) := by
  intro rest
  induction rest with
  | nil =>
    intro bc instr esc acc hacc hrun hinv
    intro q hq hpre
    rw [List.append_nil] at hpre
    exact hinv q hq hpre
  | cons c rest ih =>
    intro bc instr esc acc hacc hrun hinv
    have haccr : acc.reverse ≠ [] := by simpa using hacc
    have hbc : (1 : Int) ≤ bc := by
      have h0 := hinv acc.reverse haccr (List.prefix_refl _)
      rw [hrun] at h0
      exact h0
    simp only [extractLoop]
    by_cases h1 : c = '"' ∧ esc = false
    · rw [if_pos h1]
      have hstep : runScan (acc.reverse ++ [c]) = (bc, !instr, false) := by
        rw [runScan_append_char, hrun, scanStep, if_pos h1]
      have hinv2 : ∀ q, q ≠ [] → q <+: (c :: acc).reverse → 1 ≤ (runScan q).1 := by
        rw [List.reverse_cons]
        intro q hq hpre
        rcases prefix_concat_cases q acc.reverse c hpre with hp | rfl
        · exact hinv q hq hp
        · rw [hstep]; exact hbc
      have hrec := ih bc (!instr) false (c :: acc) (by simp)
        (by rw [List.reverse_cons]; exact hstep) hinv2
      rw [List.reverse_cons] at hrec
      exact extractPost_cons acc.reverse c rest _ hrec
    · rw [if_neg h1]
      by_cases h2 : c = '\\' ∧ esc = false
      · rw [if_pos h2]
        have hstep : runScan (acc.reverse ++ [c]) = (bc, instr, true) := by
          rw [runScan_append_char, hrun, scanStep, if_neg h1, if_pos h2]
        have hinv2 : ∀ q, q ≠ [] → q <+: (c :: acc).reverse → 1 ≤ (runScan q).1 := by
          rw [List.reverse_cons]
          intro q hq hpre
          rcases prefix_concat_cases q acc.reverse c hpre with hp | rfl
          · exact hinv q hq hp
          · rw [hstep]; exact hbc
        have hrec := ih bc instr true (c :: acc) (by simp)
          (by rw [List.reverse_cons]; exact hstep) hinv2
        rw [List.reverse_cons] at hrec
        exact extractPost_cons acc.reverse c rest _ hrec
      · rw [if_neg h2]
        by_cases h3 : instr = false ∧ c = lbrace
        · rw [if_pos h3]
          have hstep : runScan (acc.reverse ++ [c]) = (bc + 1, instr, false) := by
            rw [runScan_append_char, hrun, scanStep, if_neg h1, if_neg h2, if_pos h3]
          have hinv2 : ∀ q, q ≠ [] → q <+: (c :: acc).reverse → 1 ≤ (runScan q).1 := by
            rw [List.reverse_cons]
            intro q hq hpre
            rcases prefix_concat_cases q acc.reverse c hpre with hp | rfl
            · exact hinv q hq hp
            · rw [hstep]
              show (1 : Int) ≤ bc + 1
              omega
          have hrec := ih (bc + 1) instr false (c :: acc) (by simp)
            (by rw [List.reverse_cons]; exact hstep) hinv2
          rw [List.reverse_cons] at hrec
          exact extractPost_cons acc.reverse c rest _ hrec
        · rw [if_neg h3]
          by_cases h4 : instr = false ∧ c = rbrace
          · rw [if_pos h4]
            have hstep : runScan (acc.reverse ++ [c]) = (bc - 1, instr, false) := by
              rw [runScan_append_char, hrun, scanStep, if_neg h1, if_neg h2, if_neg h3,
                if_pos h4]
            by_cases hz : bc - 1 = 0
            · rw [if_pos hz]
              have hdz : (runScan ((c :: acc).reverse)).1 = 0 := by
                rw [List.reverse_cons, hstep]
                exact hz
              have hmin : ∀ q, q ≠ [] → q <+: (c :: acc).reverse →
                  q ≠ (c :: acc).reverse → 1 ≤ (runScan q).1 := by
                rw [List.reverse_cons]
                intro q hq hpre hne
                rcases prefix_concat_cases q acc.reverse c hpre with hp | rfl
                · exact hinv q hq hp
                · exact absurd rfl hne
              by_cases hv : validJson ((c :: acc).reverse) = true
              · rw [if_pos hv]
                exact ⟨[c], rest, rfl, by rw [List.reverse_cons], ⟨hdz, hmin⟩, hv⟩
              · rw [if_neg hv]
                exact ⟨(c :: acc).reverse, [c], rest, rfl, by rw [List.reverse_cons],
                  ⟨hdz, hmin⟩, by simpa using hv⟩
            · rw [if_neg hz]
              have hinv2 : ∀ q, q ≠ [] → q <+: (c :: acc).reverse → 1 ≤ (runScan q).1 := by
                rw [List.reverse_cons]
                intro q hq hpre
                rcases prefix_concat_cases q acc.reverse c hpre with hp | rfl
                · exact hinv q hq hp
                · rw [hstep]
                  show (1 : Int) ≤ bc - 1
                  omega
              have hrec := ih (bc - 1) instr false (c :: acc) (by simp)
                (by rw [List.reverse_cons]; exact hstep) hinv2
              rw [List.reverse_cons] at hrec
              exact extractPost_cons acc.reverse c rest _ hrec
          · rw [if_neg h4]
            have hstep : runScan (acc.reverse ++ [c]) = (bc, instr, false) := by
              rw [runScan_append_char, hrun, scanStep, if_neg h1, if_neg h2, if_neg h3,
                if_neg h4]
            have hinv2 : ∀ q, q ≠ [] → q <+: (c :: acc).reverse → 1 ≤ (runScan q).1 := by
              rw [List.reverse_cons]
              intro q hq hpre
              rcases prefix_concat_cases q acc.reverse c hpre with hp | rfl
              · exact hinv q hq hp
              · rw [hstep]; exact hbc
            have hrec := ih bc instr false (c :: acc) (by simp)
              (by rw [List.reverse_cons]; exact hstep) hinv2
            rw [List.reverse_cons] at hrec
            exact extractPost_cons acc.reverse c rest _ hrec

theorem extract_json_dict_spec (text : List Char) :
    (match extract_json_dict text with
     | .ok s => s ≠ [] ∧ s.head? = some lbrace ∧
         (∃ rest2, text.dropWhile (fun c => c != lbrace) = s ++ rest2) ∧
         balancedCand s ∧ validJson s = true
     | .error .badJson => ∃ s, s ≠ [] ∧ s.head? = some lbrace ∧
         (∃ rest2, text.dropWhile (fun c => c != lbrace) = s ++ rest2) ∧
         balancedCand s ∧ validJson s = false
     | .error .noValid => ∀ q, q ≠ [] → q <+: text.dropWhile (fun c => c != lbrace) →
         1 ≤ (runScan q).1
     | .error .noBrace => lbrace ∉ text) := by
  by_cases hemp : (text.dropWhile (fun c => c != lbrace)).isEmpty = true
  · have hres : extract_json_dict text = Except.error ExtractErr.noBrace := by
      unfold extract_json_dict
      rw [if_pos hemp]
    rw [hres]
    intro hmem
    have h0 := List.dropWhile_eq_nil_iff.mp (List.isEmpty_iff.mp hemp) lbrace hmem
    simp at h0
  · have hdne : text.dropWhile (fun c => c != lbrace) ≠ [] := by
      intro hnil
      rw [hnil] at hemp
      exact hemp rfl
    obtain ⟨c0, d', hc⟩ := List.exists_cons_of_ne_nil hdne
    have hc0 : c0 = lbrace := by
      have h0 := dropWhile_head_false (fun c => c != lbrace) text c0 d' hc
      simpa using h0
    rw [hc0] at hc
    have hres : extract_json_dict text = extractLoop d' (0 + 1) false false [lbrace] := by
      unfold extract_json_dict
      rw [if_neg hemp, hc]
      simp only [extractLoop]
      rw [if_neg (by decide), if_neg (by decide), if_pos (by decide)]
    have hpost := extractLoop_spec d' (0 + 1) false false [lbrace] (by simp)
      (by decide)
      (by
        intro q hq hpre
        have h1 : 1 ≤ q.length := by
          cases q with
          | nil => exact absurd rfl hq
          | cons a t => simp
        have h2 := hpre.length_le
        have h3 : q = [lbrace].reverse := hpre.eq_of_length (by simp at h2 ⊢; omega)
        rw [h3]
        decide)
    rw [hres]
    cases hE : extractLoop d' (0 + 1) false false [lbrace] with
    | ok s =>
      rw [hE] at hpost
      obtain ⟨mid, rest2, hm, hs, hb, hv⟩ := hpost
      simp only [List.reverse_cons, List.reverse_nil, List.nil_append,
        List.singleton_append] at hs
      refine ⟨by rw [hs]; simp, by rw [hs]; rfl, ⟨rest2, ?_⟩, hb, hv⟩
      rw [hc, hm, hs]
      simp
    | error e =>
      cases e with
      | noBrace =>
        rw [hE] at hpost
        exact hpost.elim
      | noValid =>
        rw [hE] at hpost
        intro q hq hpre
        refine hpost q hq ?_
        rw [hc] at hpre
        simpa using hpre
      | badJson =>
        rw [hE] at hpost
        obtain ⟨s, mid, rest2, hm, hs, hb, hv⟩ := hpost
        simp only [List.reverse_cons, List.reverse_nil, List.nil_append,
          List.singleton_append] at hs
        refine ⟨s, by rw [hs]; simp, by rw [hs]; rfl, ⟨rest2, ?_⟩, hb, hv⟩
        rw [hc, hm, hs]
        simp

unseal jparseVal jparseObjBody jparseMembers jparseArrBody jparseElems jstrLoop in
/-- Claim C4: on success, `extract_json_dict` returns a substring of the
input that starts at the input's first opening brace, whose
quote-and-escape-aware brace depth (braces inside double-quoted string
literals do not count) is zero at its end and nonzero on every proper
nonempty initial segment — so it ends at the brace returning the depth
to zero — and that is valid JSON; concretely, on prose embedding a
balanced object with a closing-brace character inside a quoted string
value, exactly the outer balanced object is extracted. -/
theorem extract_balanced_object :
    (∀ text s, extract_json_dict text = Except.ok s →
      ∃ pre rest, text = pre ++ s ++ rest ∧ lbrace ∉ pre ∧ s.head? = some lbrace ∧
        (runScan s).1 = 0 ∧
        (∀ q, q ≠ [] → q <+: s → q ≠ s → (runScan q).1 ≠ 0) ∧
        validJson s = true) ∧
    extract_json_dict ("the mapping is \x7b\"a\": \"x\x7dy\"\x7d thanks".toList) =
      Except.ok "\x7b\"a\": \"x\x7dy\"\x7d".toList := by
  constructor
  · intro text s h
    have hp := extract_json_dict_spec text
    rw [h] at hp
    obtain ⟨hne, hhead, ⟨rest2, hdrop⟩, ⟨hz, hmin⟩, hv⟩ := hp
    refine ⟨text.takeWhile (fun c => c != lbrace), rest2, ?_, ?_, hhead, hz, ?_, hv⟩
    · conv_lhs => rw [← List.takeWhile_append_dropWhile (fun c => c != lbrace) text]
      rw [hdrop, List.append_assoc]
    · intro hmem
      have h0 := List.mem_takeWhile_imp hmem
      simp at h0
    · intro q hq hpre hne2
      have := hmin q hq hpre hne2
      omega
  · rfl

unseal jparseVal jparseObjBody jparseMembers jparseArrBody jparseElems jstrLoop in
theorem extract_balanced_object_witness :
    ∃ pre rest, "the mapping is \x7b\"a\": \"x\x7dy\"\x7d thanks".toList =
        pre ++ "\x7b\"a\": \"x\x7dy\"\x7d".toList ++ rest ∧ lbrace ∉ pre ∧
        ("\x7b\"a\": \"x\x7dy\"\x7d".toList).head? = some lbrace ∧
        (runScan "\x7b\"a\": \"x\x7dy\"\x7d".toList).1 = 0 ∧
        (∀ q, q ≠ [] → q <+: "\x7b\"a\": \"x\x7dy\"\x7d".toList →
          q ≠ "\x7b\"a\": \"x\x7dy\"\x7d".toList → (runScan q).1 ≠ 0) ∧
        validJson "\x7b\"a\": \"x\x7dy\"\x7d".toList = true :=
  extract_balanced_object.1 _ _ (by rfl)

/-- Claim C10: `extract_json_dict` fails with the no-opening-brace error
exactly when the text has no opening brace; a no-valid-JSON failure
means no nonempty initial segment of the text from its first opening
brace has scan depth zero (no balanced substring completes); an
invalid-JSON failure means the first balanced substring from the first
opening brace is not valid JSON; and a normal return always starts at
the first opening brace — a balanced object beginning at a later brace
is never considered. -/
theorem extract_error_behaviour :
    (∀ text : List Char,
      extract_json_dict text = Except.error ExtractErr.noBrace ↔ lbrace ∉ text) ∧
    (∀ text, extract_json_dict text = Except.error ExtractErr.noValid →
      ∀ q, q ≠ [] → q <+: text.dropWhile (fun c => c != lbrace) → (runScan q).1 ≠ 0) ∧
    (∀ text, extract_json_dict text = Except.error ExtractErr.badJson →
      ∃ s rest2, s ≠ [] ∧ s.head? = some lbrace ∧
        text.dropWhile (fun c => c != lbrace) = s ++ rest2 ∧
        (runScan s).1 = 0 ∧ (∀ q, q ≠ [] → q <+: s → q ≠ s → (runScan q).1 ≠ 0) ∧
        validJson s = false) ∧
    (∀ text s, extract_json_dict text = Except.ok s →
      s ≠ [] ∧ ∃ rest2, text.dropWhile (fun c => c != lbrace) = s ++ rest2) := by
  refine ⟨fun text => ⟨fun h => ?_, fun h => ?_⟩, fun text h => ?_, fun text h => ?_,
    fun text s h => ?_⟩
  · have hp := extract_json_dict_spec text
    rw [h] at hp
    exact hp
  · have hnil : text.dropWhile (fun c => c != lbrace) = [] :=
      List.dropWhile_eq_nil_iff.mpr (fun x hx => by
        simp only [bne_iff_ne, ne_eq]
        intro he
        exact h (he ▸ hx))
    unfold extract_json_dict
    rw [hnil]
    rfl
  · have hp := extract_json_dict_spec text
    rw [h] at hp
    intro q hq hpre
    have := hp q hq hpre
    omega
  · have hp := extract_json_dict_spec text
    rw [h] at hp
    obtain ⟨s, hne, hhead, ⟨rest2, hdrop⟩, ⟨hz, hmin⟩, hv⟩ := hp
    exact ⟨s, rest2, hne, hhead, hdrop, hz,
      fun q hq hpre hne2 => by have := hmin q hq hpre hne2; omega, hv⟩
  · have hp := extract_json_dict_spec text
    rw [h] at hp
    obtain ⟨hne, hhead, ⟨rest2, hdrop⟩, hb, hv⟩ := hp
    exact ⟨hne, rest2, hdrop⟩

theorem extract_error_behaviour_witness :
    (runScan [lbrace]).1 ≠ 0 :=
  extract_error_behaviour.2.1 "see \x7b no close".toList (by rfl) [lbrace]
    (by decide) (by decide)

/-! ### The fuzzy matcher (claim C3) -/

theorem qualMax_ge_t (t : ℚ) (s : List Char) :
    ∀ (bs : List (List Char)) (m : ℚ), qualMax t s bs = some m → t ≤ m := by
  intro bs
  induction bs with
  | nil => intro m h; cases h
  | cons b bs ih =>
    intro m h
    simp only [qualMax] at h
    by_cases h1 : t ≤ ratioQ s b
    · rw [if_pos h1] at h
      cases hq : qualMax t s bs with
      | none => rw [hq] at h; cases h; exact h1
      | some m0 =>
        rw [hq] at h
        cases h
        exact le_trans h1 (le_max_left _ _)
    · rw [if_neg h1] at h
      exact ih m h

theorem qualMax_eq (t : ℚ) (s : List Char) :
    ∀ (bs : List (List Char)),
    qualMax t s bs = (match maxRatioQ s bs with
      | none => none
      | some m => if t ≤ m then some m else none) := by
  intro bs
  induction bs with
  | nil => rfl
  | cons b bs ih =>
    simp only [qualMax, maxRatioQ]
    rw [ih]
    cases hM : maxRatioQ s bs with
    | none => simp only []
    | some m0 =>
      simp only []
      by_cases h2 : t ≤ m0
      · rw [if_pos h2]
        simp only []
        by_cases h1 : t ≤ ratioQ s b
        · rw [if_pos h1, if_pos (le_trans h1 (le_max_left _ _))]
        · rw [if_neg h1, if_pos (le_trans h2 (le_max_right _ _))]
          rw [max_eq_right (le_of_lt (lt_of_lt_of_le (not_le.mp h1) h2))]
      · rw [if_neg h2]
        simp only []
        by_cases h1 : t ≤ ratioQ s b
        · rw [if_pos h1, if_pos (le_trans h1 (le_max_left _ _))]
          rw [max_eq_left (le_of_lt (lt_of_lt_of_le (not_le.mp h2) h1))]
        · rw [if_neg h1,
            if_neg (not_le.mpr (max_lt (not_le.mp h1) (not_le.mp h2)))]

theorem fuzzy_inner_fold (t : ℚ) (s : List Char) :
    ∀ (bs : List (List Char)) (st : Option (List Char) × ℚ),
    (bs.foldl
      (fun st excel_name =>
        let score := ratioQ s excel_name
        if st.2 < score ∧ t ≤ score then (some excel_name, score) else st) st) =
    (match qualMax t s bs with
     | none => st
     | some m =>
       ((if st.2 < m then bs.find? (fun b => ratioQ s b == m) else st.1),
        max st.2 m)) := by
  intro bs
  induction bs with
  | nil => intro st; rfl
  | cons b bs ih =>
    intro st
    simp only [List.foldl_cons, qualMax]
    cases hq : qualMax t s bs with
    | none =>
      simp only []
      by_cases h1 : t ≤ ratioQ s b
      · rw [if_pos h1]
        simp only []
        by_cases h2 : st.2 < ratioQ s b
        · rw [if_pos ⟨h2, h1⟩, ih, hq]
          simp only []
          rw [if_pos h2, List.find?_cons_of_pos bs (by simp),
            max_eq_right (le_of_lt h2)]
        · rw [if_neg (fun hc : st.2 < ratioQ s b ∧ t ≤ ratioQ s b => h2 hc.1), ih, hq]
          simp only []
          rw [if_neg h2, max_eq_left (not_lt.mp h2)]
      · rw [if_neg h1,
          if_neg (fun hc : st.2 < ratioQ s b ∧ t ≤ ratioQ s b => h1 hc.2), ih, hq]
    | some m0 =>
      have ht0 : t ≤ m0 := qualMax_ge_t t s bs m0 hq
      simp only []
      by_cases h1 : t ≤ ratioQ s b
      · rw [if_pos h1]
        simp only []
        by_cases h2 : st.2 < ratioQ s b
        · rw [if_pos ⟨h2, h1⟩, ih, hq]
          simp only []
          have hlt : st.2 < max (ratioQ s b) m0 :=
            lt_of_lt_of_le h2 (le_max_left _ _)
          rw [if_pos hlt, max_eq_right (le_of_lt hlt)]
          rcases le_or_lt m0 (ratioQ s b) with hba | hba
          · rw [if_neg (not_lt.mpr hba), max_eq_left hba,
              List.find?_cons_of_pos bs (by simp)]
          · rw [if_pos hba, max_eq_right (le_of_lt hba),
              List.find?_cons_of_neg bs (by simp [ne_of_lt hba])]
        · rw [if_neg (fun hc : st.2 < ratioQ s b ∧ t ≤ ratioQ s b => h2 hc.1), ih, hq]
          simp only []
          have hrb : ratioQ s b ≤ st.2 := not_lt.mp h2
          rw [← max_assoc, max_eq_left hrb]
          by_cases h3 : st.2 < m0
          · have hbm : ratioQ s b < m0 := lt_of_le_of_lt hrb h3
            rw [if_pos h3, if_pos (lt_of_lt_of_le h3 (le_max_right _ _)),
              max_eq_right (le_of_lt hbm),
              List.find?_cons_of_neg bs (by simp [ne_of_lt hbm])]
          · rw [if_neg h3,
              if_neg (not_lt.mpr (max_le hrb (not_lt.mp h3)))]
      · rw [if_neg h1,
          if_neg (fun hc : st.2 < ratioQ s b ∧ t ≤ ratioQ s b => h1 hc.2), ih, hq]
        simp only []
        have hne : ratioQ s b ≠ m0 := fun he => h1 (he ▸ ht0)
        by_cases h3 : st.2 < m0
        · rw [if_pos h3, if_pos h3, List.find?_cons_of_neg bs (by simp [hne])]
        · rw [if_neg h3, if_neg h3]

theorem fuzzy_inner_start (t : ℚ) (s : List Char) (bs : List (List Char)) :
    (bs.foldl
      (fun st excel_name =>
        let score := ratioQ s excel_name
        if st.2 < score ∧ t ≤ score then (some excel_name, score) else st)
      ((none : Option (List Char)), (0 : ℚ))).1 =
    (match qualMax t s bs with
     | none => none
     | some m => if (0 : ℚ) < m then bs.find? (fun b => ratioQ s b == m) else none) := by
  rw [fuzzy_inner_fold]
  cases qualMax t s bs with
  | none => rfl
  | some m => rfl

theorem specSelect_loop (t : ℚ) (s : List Char) (bs : List (List Char)) :
    specSelect t s bs =
      (match (bs.foldl
        (fun st excel_name =>
          let score := ratioQ s excel_name
          if st.2 < score ∧ t ≤ score then (some excel_name, score) else st)
        ((none : Option (List Char)), (0 : ℚ))).1 with
      | some bm => if bm.isEmpty then none else some bm
      | none => none) := by
  rw [fuzzy_inner_start, qualMax_eq]
  unfold specSelect
  cases hM : maxRatioQ s bs with
  | none => rfl
  | some m =>
    simp only []
    by_cases h1 : t ≤ m
    · rw [if_pos h1]
      simp only []
      by_cases h2 : (0 : ℚ) < m
      · rw [if_pos (⟨h1, h2⟩ : t ≤ m ∧ (0 : ℚ) < m), if_pos h2]
        cases bs.find? (fun b => ratioQ s b == m) with
        | none => rfl
        | some b => rfl
      · rw [if_neg (fun hc : t ≤ m ∧ (0 : ℚ) < m => h2 hc.2), if_neg h2]
    · rw [if_neg (fun hc : t ≤ m ∧ (0 : ℚ) < m => h1 hc.1), if_neg h1]

theorem fuzzy_fold_lookup (excel : List (List Char)) (t : ℚ) :
    ∀ (csv : List (List Char)) (acc : List (List Char × List Char)) (s : List Char),
    lookupD (csv.foldl
      (fun acc csv_name =>
        let r := excel.foldl
          (fun st excel_name =>
            let score := ratioQ csv_name excel_name
            if st.2 < score ∧ t ≤ score then (some excel_name, score) else st)
          ((none : Option (List Char)), (0 : ℚ))
        match r.1 with
        | some bm => if bm.isEmpty then acc else dictUpdate acc (csv_name, bm)
        | none => acc)
      acc) s =
    (if s ∈ csv then specSelect t s excel else none).or (lookupD acc s) := by
  intro csv
  induction csv with
  | nil =>
    intro acc s
    rw [List.foldl_nil, if_neg (List.not_mem_nil s), Option.none_or]
  | cons c csv ih =>
    intro acc s
    simp only [List.foldl_cons]
    rw [ih]
    have hstep : lookupD
        (match (excel.foldl
          (fun st excel_name =>
            let score := ratioQ c excel_name
            if st.2 < score ∧ t ≤ score then (some excel_name, score) else st)
          ((none : Option (List Char)), (0 : ℚ))).1 with
        | some bm => if bm.isEmpty then acc else dictUpdate acc (c, bm)
        | none => acc) s =
        (if s = c then specSelect t c excel else none).or (lookupD acc s) := by
      rw [specSelect_loop t c excel]
      cases hr : (excel.foldl
          (fun st excel_name =>
            let score := ratioQ c excel_name
            if st.2 < score ∧ t ≤ score then (some excel_name, score) else st)
          ((none : Option (List Char)), (0 : ℚ))).1 with
      | none =>
        simp only []
        by_cases hsc : s = c
        · rw [if_pos hsc, Option.none_or]
        · rw [if_neg hsc, Option.none_or]
      | some bm =>
        simp only []
        by_cases hbm : bm.isEmpty = true
        · rw [if_pos hbm, if_pos hbm]
          by_cases hsc : s = c
          · rw [if_pos hsc, Option.none_or]
          · rw [if_neg hsc, Option.none_or]
        · rw [if_neg hbm, if_neg hbm, lookupD_dictUpdate]
          by_cases hsc : s = c
          · rw [if_pos hsc, if_pos hsc]
            rfl
          · rw [if_neg hsc, if_neg hsc, Option.none_or]
    rw [hstep]
    by_cases hmem : s ∈ csv
    · rw [if_pos hmem, if_pos (List.mem_cons_of_mem c hmem)]
      cases hspec : specSelect t s excel with
      | none =>
        rw [Option.none_or, Option.none_or]
        by_cases hsc : s = c
        · subst hsc
          rw [hspec, if_pos rfl, Option.none_or]
        · rw [if_neg hsc, Option.none_or]
      | some b => rfl
    · rw [if_neg hmem, Option.none_or]
      by_cases hsc : s = c
      · subst hsc
        rw [if_pos rfl, if_pos (List.mem_cons_self s csv)]
      · rw [if_neg hsc, Option.none_or,
          if_neg (fun hc => (List.mem_cons.mp hc).elim hsc hmem), Option.none_or]

theorem fuzzy_lookup (csv excel : List (List Char)) (t : ℚ) (s : List Char) :
    lookupD (fuzzy_match_schools csv excel t) s =
      if s ∈ csv then specSelect t s excel else none := by
  unfold fuzzy_match_schools
  rw [fuzzy_fold_lookup excel t csv [] s, lookupD_nil, Option.or_none]

theorem runLen_le (s : List Char) : ∀ j, runLen s j ≤ j + 1 := by
  intro j
  induction j with
  | zero => simp only [runLen]; split <;> omega
  | succ j ih => simp only [runLen]; split <;> omega

theorem runLen_active (s : List Char) (j : Nat) (h : activeCol s j = true) :
    runLen s j = (if j = 0 then 0 else runLen s (j - 1)) + 1 := by
  cases j with
  | zero => simp [runLen, h]
  | succ j => simp [runLen, h]

theorem runLen_inactive (s : List Char) (j : Nat) (h : activeCol s j = false) :
    runLen s j = 0 := by
  cases j <;> simp [runLen, h]

theorem range'_split (s m n : Nat) :
    List.range' s (m + n) = List.range' s m ++ List.range' (s + m) n := by
  have h := List.range'_append s m n 1
  simp only [Nat.one_mul] at h
  rw [Nat.add_comm m n]
  exact h.symm

theorem flmInner_append (bhi i : Nat) (j2len : Nat → Nat) :
    ∀ (l1 l2 : List Nat) (nj : Nat → Nat) (best : FlmBest),
    (∀ j ∈ l1, j < bhi) →
    flmInner 0 bhi i j2len (l1 ++ l2) nj best =
      flmInner 0 bhi i j2len l2 (flmInner 0 bhi i j2len l1 nj best).1
        (flmInner 0 bhi i j2len l1 nj best).2 := by
  intro l1
  induction l1 with
  | nil => intro l2 nj best _; rfl
  | cons j l1 ih =>
    intro l2 nj best h
    have hj : j < bhi := h j (List.mem_cons_self _ _)
    simp only [List.cons_append, flmInner, if_neg (Nat.not_lt_zero j),
      if_neg (Nat.not_le.mpr hj)]
    exact ih l2 _ _ (fun x hx => h x (List.mem_cons_of_mem j hx))

theorem flmInner_no_update (bhi i : Nat) (j2len : Nat → Nat) :
    ∀ (js : List Nat) (nj : Nat → Nat) (best : FlmBest),
    (∀ j ∈ js, j < bhi) →
    (∀ j ∈ js, (if j = 0 then 0 else j2len (j - 1)) + 1 ≤ best.bestsize) →
    (flmInner 0 bhi i j2len js nj best).2 = best ∧
    (∀ x, (flmInner 0 bhi i j2len js nj best).1 x = nj x ∨
      (x ∈ js ∧ (flmInner 0 bhi i j2len js nj best).1 x =
        (if x = 0 then 0 else j2len (x - 1)) + 1)) := by
  intro js
  induction js with
  | nil => intro nj best _ _; exact ⟨rfl, fun x => Or.inl rfl⟩
  | cons j js ih =>
    intro nj best h1 h2
    have hj : j < bhi := h1 j (List.mem_cons_self _ _)
    have hk := h2 j (List.mem_cons_self _ _)
    simp only [flmInner, if_neg (Nat.not_lt_zero j), if_neg (Nat.not_le.mpr hj),
      if_neg (Nat.not_lt.mpr hk)]
    obtain ⟨hb, hn⟩ := ih
      (fun x => if x = j then (if j = 0 then 0 else j2len (j - 1)) + 1 else nj x) best
      (fun x hx => h1 x (List.mem_cons_of_mem j hx))
      (fun x hx => h2 x (List.mem_cons_of_mem j hx))
    refine ⟨hb, fun x => ?_⟩
    rcases hn x with hx | ⟨hmem, hval⟩
    · rw [hx]
      by_cases hxj : x = j
      · subst hxj
        rw [if_pos rfl]
        exact Or.inr ⟨List.mem_cons_self _ _, rfl⟩
      · rw [if_neg hxj]
        exact Or.inl rfl
    · exact Or.inr ⟨List.mem_cons_of_mem j hmem, hval⟩

theorem flmInner_diag (bhi i : Nat) (j2len nj : Nat → Nat) (best : FlmBest)
    (hbhi : i < bhi) :
    flmInner 0 bhi i j2len [i] nj best =
      ((fun x => if x = i then (if i = 0 then 0 else j2len (i - 1)) + 1 else nj x),
       (if best.bestsize < (if i = 0 then 0 else j2len (i - 1)) + 1 then
         FlmBest.mk (i + 1 - ((if i = 0 then 0 else j2len (i - 1)) + 1))
           (i + 1 - ((if i = 0 then 0 else j2len (i - 1)) + 1))
           ((if i = 0 then 0 else j2len (i - 1)) + 1)
       else best)) := by
  simp only [flmInner, if_neg (Nat.not_lt_zero i), if_neg (Nat.not_le.mpr hbhi)]

theorem flmRow_equal (s : List Char) (m : Nat) (hm : m < s.length)
    (j2len : Nat → Nat) (best : FlmBest) (hinv : flmINV s m j2len best) :
    flmINV s (m + 1)
      (flmInner 0 s.length m j2len (b2j s (s.getD m ' ')) (fun _ => 0) best).1
      (flmInner 0 s.length m j2len (b2j s (s.getD m ' ')) (fun _ => 0) best).2 := by
  obtain ⟨hA, hG, hB, hC, hD, hF⟩ := hinv
  by_cases hpop : isPopular s (s.getD m ' ') = true
  · have hb2j : b2j s (s.getD m ' ') = [] := by unfold b2j; rw [if_pos hpop]
    rw [hb2j]
    have hact : activeCol s m = false := by
      unfold activeCol
      rw [hpop]
      simp
    have hrm : runLen s m = 0 := runLen_inactive s m hact
    refine ⟨fun x => Nat.zero_le _, fun x => Nat.zero_le _, Or.inr ?_, hC, ?_, hF⟩
    · show (0 : Nat) = runLen s (m + 1 - 1)
      simp only [Nat.add_sub_cancel]
      exact hrm.symm
    · intro j hj
      rcases Nat.lt_succ_iff_lt_or_eq.mp hj with h | rfl
      · exact hD j h
      · rw [hrm]; exact Nat.zero_le _
  · have hpop2 : isPopular s (s.getD m ' ') = false := by
      simpa using hpop
    have hact : activeCol s m = true := by
      unfold activeCol
      rw [hpop2]
      simp [hm]
    have hrm : runLen s m = (if m = 0 then 0 else runLen s (m - 1)) + 1 :=
      runLen_active s m hact
    have hr : List.range' 0 s.length =
        List.range' 0 m ++ List.range' m (s.length - m) := by
      have h1 : s.length = m + (s.length - m) := by omega
      conv_lhs => rw [h1]
      rw [range'_split 0 m (s.length - m), Nat.zero_add]
    have hr2 : List.range' m (s.length - m) =
        m :: List.range' (m + 1) (s.length - (m + 1)) := by
      have h2 : s.length - m = (s.length - (m + 1)) + 1 := by omega
      rw [h2, List.range'_succ]
    have hb2j : b2j s (s.getD m ' ') =
        ((List.range' 0 m).filter (fun j => s.getD j ' ' == s.getD m ' ')) ++
        m :: ((List.range' (m + 1) (s.length - (m + 1))).filter
          (fun j => s.getD j ' ' == s.getD m ' ')) := by
      unfold b2j indicesOf
      rw [if_neg hpop, List.range_eq_range' s.length, hr, hr2, List.filter_append,
        List.filter_cons, if_pos (by simp)]
    have hPlt : ∀ j ∈ (List.range' 0 m).filter
        (fun j => s.getD j ' ' == s.getD m ' '), j < s.length := by
      intro j hj
      have := (List.mem_range'_1.mp (List.mem_filter.mp hj).1).2
      omega
    have hPm : ∀ j ∈ (List.range' 0 m).filter
        (fun j => s.getD j ' ' == s.getD m ' '), j < m := by
      intro j hj
      have := (List.mem_range'_1.mp (List.mem_filter.mp hj).1).2
      omega
    have hSlt : ∀ j ∈ (List.range' (m + 1) (s.length - (m + 1))).filter
        (fun j => s.getD j ' ' == s.getD m ' '), j < s.length := by
      intro j hj
      have := (List.mem_range'_1.mp (List.mem_filter.mp hj).1).2
      omega
    have hSgt : ∀ j ∈ (List.range' (m + 1) (s.length - (m + 1))).filter
        (fun j => s.getD j ' ' == s.getD m ' '), m < j := by
      intro j hj
      have := (List.mem_range'_1.mp (List.mem_filter.mp hj).1).1
      omega
    have hactOf : ∀ j, j < s.length → (s.getD j ' ' == s.getD m ' ') = true →
        activeCol s j = true := by
      intro j hjL hjc
      have hcc : s.getD j ' ' = s.getD m ' ' := by simpa using hjc
      unfold activeCol
      rw [hcc, hpop2]
      simp [hjL]
    have hPact : ∀ j ∈ (List.range' 0 m).filter
        (fun j => s.getD j ' ' == s.getD m ' '), activeCol s j = true := by
      intro j hj
      exact hactOf j (hPlt j hj) (List.mem_filter.mp hj).2
    have hSact : ∀ j ∈ (List.range' (m + 1) (s.length - (m + 1))).filter
        (fun j => s.getD j ' ' == s.getD m ' '), activeCol s j = true := by
      intro j hj
      exact hactOf j (hSlt j hj) (List.mem_filter.mp hj).2
    have hkA : ∀ j, activeCol s j = true →
        (if j = 0 then 0 else j2len (j - 1)) + 1 ≤ runLen s j := by
      intro j hj
      rw [runLen_active s j hj]
      by_cases hj0 : j = 0
      · rw [if_pos hj0, if_pos hj0]
      · rw [if_neg hj0, if_neg hj0]
        exact Nat.succ_le_succ (hA (j - 1))
    have hkG : ∀ j, (if j = 0 then 0 else j2len (j - 1)) + 1 ≤ runLen s m := by
      intro j
      have hGx := hG (j - 1)
      rw [hrm]
      by_cases hj0 : j = 0
      · rw [if_pos hj0]; omega
      · rw [if_neg hj0]
        by_cases hm0 : m = 0
        · rw [if_pos hm0] at hGx ⊢; omega
        · rw [if_neg hm0] at hGx ⊢; omega
    have hkd : (if m = 0 then 0 else j2len (m - 1)) + 1 = runLen s m := by
      rw [hrm]
      by_cases hm0 : m = 0
      · rw [if_pos hm0, if_pos hm0]
      · rw [if_neg hm0, if_neg hm0]
        rcases hB with hB0 | hBe
        · exact absurd hB0 hm0
        · rw [hBe]
    have hPk : ∀ j ∈ (List.range' 0 m).filter
        (fun j => s.getD j ' ' == s.getD m ' '),
        (if j = 0 then 0 else j2len (j - 1)) + 1 ≤ best.bestsize := by
      intro j hj
      exact le_trans (hkA j (hPact j hj)) (hD j (hPm j hj))
    obtain ⟨hPb, hPn⟩ := flmInner_no_update s.length m j2len
      ((List.range' 0 m).filter (fun j => s.getD j ' ' == s.getD m ' '))
      (fun _ => 0) best hPlt hPk
    have hsplit1 : flmInner 0 s.length m j2len (b2j s (s.getD m ' '))
        (fun _ => 0) best =
        flmInner 0 s.length m j2len
          (m :: ((List.range' (m + 1) (s.length - (m + 1))).filter
            (fun j => s.getD j ' ' == s.getD m ' ')))
          (flmInner 0 s.length m j2len
            ((List.range' 0 m).filter (fun j => s.getD j ' ' == s.getD m ' '))
            (fun _ => 0) best).1
          (flmInner 0 s.length m j2len
            ((List.range' 0 m).filter (fun j => s.getD j ' ' == s.getD m ' '))
            (fun _ => 0) best).2 := by
      rw [hb2j]
      exact flmInner_append s.length m j2len _ _ (fun _ => 0) best hPlt
    rw [hPb] at hsplit1
    have hsplit2 : flmInner 0 s.length m j2len
        (m :: ((List.range' (m + 1) (s.length - (m + 1))).filter
          (fun j => s.getD j ' ' == s.getD m ' ')))
        (flmInner 0 s.length m j2len
          ((List.range' 0 m).filter (fun j => s.getD j ' ' == s.getD m ' '))
          (fun _ => 0) best).1 best =
        flmInner 0 s.length m j2len
          ((List.range' (m + 1) (s.length - (m + 1))).filter
            (fun j => s.getD j ' ' == s.getD m ' '))
          (fun x => if x = m then runLen s m else
            (flmInner 0 s.length m j2len
              ((List.range' 0 m).filter (fun j => s.getD j ' ' == s.getD m ' '))
              (fun _ => 0) best).1 x)
          (if best.bestsize < runLen s m then
            FlmBest.mk (m + 1 - runLen s m) (m + 1 - runLen s m) (runLen s m)
          else best) := by
      have happ := flmInner_append s.length m j2len [m]
        ((List.range' (m + 1) (s.length - (m + 1))).filter
          (fun j => s.getD j ' ' == s.getD m ' '))
        (flmInner 0 s.length m j2len
          ((List.range' 0 m).filter (fun j => s.getD j ' ' == s.getD m ' '))
          (fun _ => 0) best).1 best
        (fun j hj => by rcases List.mem_singleton.mp hj with rfl; exact hm)
      rw [List.singleton_append] at happ
      rw [happ, flmInner_diag s.length m j2len _ best hm, hkd]
    have hfin := hsplit1.trans hsplit2
    rw [hfin]
    have hSk : ∀ j ∈ (List.range' (m + 1) (s.length - (m + 1))).filter
        (fun j => s.getD j ' ' == s.getD m ' '),
        (if j = 0 then 0 else j2len (j - 1)) + 1 ≤
        (if best.bestsize < runLen s m then
          FlmBest.mk (m + 1 - runLen s m) (m + 1 - runLen s m) (runLen s m)
        else best).bestsize := by
      intro j hj
      refine le_trans (hkG j) ?_
      by_cases hup : best.bestsize < runLen s m
      · rw [if_pos hup]
      · rw [if_neg hup]
        exact Nat.not_lt.mp hup
    obtain ⟨hSb, hSn⟩ := flmInner_no_update s.length m j2len
      ((List.range' (m + 1) (s.length - (m + 1))).filter
        (fun j => s.getD j ' ' == s.getD m ' '))
      (fun x => if x = m then runLen s m else
        (flmInner 0 s.length m j2len
          ((List.range' 0 m).filter (fun j => s.getD j ' ' == s.getD m ' '))
          (fun _ => 0) best).1 x)
      (if best.bestsize < runLen s m then
        FlmBest.mk (m + 1 - runLen s m) (m + 1 - runLen s m) (runLen s m)
      else best) hSlt hSk
    have hsize_run : runLen s m ≤
        (if best.bestsize < runLen s m then
          FlmBest.mk (m + 1 - runLen s m) (m + 1 - runLen s m) (runLen s m)
        else best).bestsize := by
      by_cases hup : best.bestsize < runLen s m
      · rw [if_pos hup]
      · rw [if_neg hup]
        exact Nat.not_lt.mp hup
    have hsize_mono : best.bestsize ≤
        (if best.bestsize < runLen s m then
          FlmBest.mk (m + 1 - runLen s m) (m + 1 - runLen s m) (runLen s m)
        else best).bestsize := by
      by_cases hup : best.bestsize < runLen s m
      · rw [if_pos hup]
        exact Nat.le_of_lt hup
      · rw [if_neg hup]
    have hval : ∀ x, (flmInner 0 s.length m j2len
        ((List.range' (m + 1) (s.length - (m + 1))).filter
          (fun j => s.getD j ' ' == s.getD m ' '))
        (fun x => if x = m then runLen s m else
          (flmInner 0 s.length m j2len
            ((List.range' 0 m).filter (fun j => s.getD j ' ' == s.getD m ' '))
            (fun _ => 0) best).1 x)
        (if best.bestsize < runLen s m then
          FlmBest.mk (m + 1 - runLen s m) (m + 1 - runLen s m) (runLen s m)
        else best)).1 x = 0 ∨
        (activeCol s x = true ∧
          (flmInner 0 s.length m j2len
            ((List.range' (m + 1) (s.length - (m + 1))).filter
              (fun j => s.getD j ' ' == s.getD m ' '))
            (fun x => if x = m then runLen s m else
              (flmInner 0 s.length m j2len
                ((List.range' 0 m).filter (fun j => s.getD j ' ' == s.getD m ' '))
                (fun _ => 0) best).1 x)
            (if best.bestsize < runLen s m then
              FlmBest.mk (m + 1 - runLen s m) (m + 1 - runLen s m) (runLen s m)
            else best)).1 x =
            (if x = 0 then 0 else j2len (x - 1)) + 1) := by
      intro x
      rcases hSn x with hx | ⟨hmem, hvalx⟩
      · rw [hx]
        by_cases hxm : x = m
        · subst hxm
          rw [if_pos rfl]
          right
          exact ⟨hact, hkd.symm⟩
        · rw [if_neg hxm]
          rcases hPn x with hx2 | ⟨hmem2, hval2⟩
          · rw [hx2]
            exact Or.inl rfl
          · rw [hval2]
            exact Or.inr ⟨hPact x hmem2, rfl⟩
      · exact Or.inr ⟨hSact x hmem, hvalx⟩
    have hatm : (flmInner 0 s.length m j2len
        ((List.range' (m + 1) (s.length - (m + 1))).filter
          (fun j => s.getD j ' ' == s.getD m ' '))
        (fun x => if x = m then runLen s m else
          (flmInner 0 s.length m j2len
            ((List.range' 0 m).filter (fun j => s.getD j ' ' == s.getD m ' '))
            (fun _ => 0) best).1 x)
        (if best.bestsize < runLen s m then
          FlmBest.mk (m + 1 - runLen s m) (m + 1 - runLen s m) (runLen s m)
        else best)).1 m = runLen s m := by
      rcases hSn m with hx | ⟨hmem, _⟩
      · rw [hx, if_pos rfl]
      · exact absurd (hSgt m hmem) (Nat.lt_irrefl m)
    rw [hSb]
    refine ⟨?_, ?_, Or.inr ?_, ?_, ?_, ?_⟩
    · intro x
      rcases hval x with hx | ⟨hactx, hvalx⟩
      · rw [hx]; exact Nat.zero_le _
      · rw [hvalx]
        exact hkA x hactx
    · intro x
      rw [if_neg (Nat.succ_ne_zero m)]
      simp only [Nat.add_sub_cancel]
      rcases hval x with hx | ⟨_, hvalx⟩
      · rw [hx]; exact Nat.zero_le _
      · rw [hvalx]
        exact hkG x
    · simp only [Nat.add_sub_cancel]
      exact hatm
    · by_cases hup : best.bestsize < runLen s m
      · rw [if_pos hup]
      · rw [if_neg hup]; exact hC
    · intro j hj
      rcases Nat.lt_succ_iff_lt_or_eq.mp hj with h | rfl
      · exact le_trans (hD j h) hsize_mono
      · exact hsize_run
    · by_cases hup : best.bestsize < runLen s m
      · rw [if_pos hup]
        have hle := runLen_le s m
        show m + 1 - runLen s m + runLen s m ≤ s.length
        omega
      · rw [if_neg hup]; exact hF

theorem flmOuter_equal (s : List Char) :
    ∀ (k m : Nat) (j2len : Nat → Nat) (best : FlmBest), m + k = s.length →
    flmINV s m j2len best →
    ((flmOuter s s 0 s.length (List.range' m k) j2len best).besti =
      (flmOuter s s 0 s.length (List.range' m k) j2len best).bestj) ∧
    (flmOuter s s 0 s.length (List.range' m k) j2len best).besti +
      (flmOuter s s 0 s.length (List.range' m k) j2len best).bestsize ≤ s.length := by
  intro k
  induction k with
  | zero =>
    intro m j2len best _ hinv
    exact ⟨hinv.2.2.2.1, hinv.2.2.2.2.2⟩
  | succ k ih =>
    intro m j2len best hmk hinv
    rw [List.range'_succ]
    simp only [flmOuter]
    exact ih (m + 1) _ _ (by omega)
      (flmRow_equal s m (by omega) j2len best hinv)

theorem extendLeft_equal (s : List Char) :
    ∀ (n : Nat) (best : FlmBest), best.besti = n → best.besti = best.bestj →
    extendLeft s s 0 0 (fun _ => false) best =
      FlmBest.mk 0 0 (best.besti + best.bestsize) := by
  intro n
  induction n with
  | zero =>
    intro best h0 hd
    obtain ⟨bi, bj, bsz⟩ := best
    simp only [] at h0 hd ⊢
    subst h0
    subst hd
    rw [extendLeft, dif_neg (fun hcon => Nat.lt_irrefl 0 hcon.1)]
    simp
  | succ n ih =>
    intro best h0 hd
    obtain ⟨bi, bj, bsz⟩ := best
    simp only [] at h0 hd ⊢
    subst h0
    subst hd
    rw [extendLeft, dif_pos ⟨Nat.succ_pos n, Nat.succ_pos n, rfl, rfl⟩]
    rw [ih (FlmBest.mk (n + 1 - 1) (n + 1 - 1) (bsz + 1)) (by simp) rfl]
    simp only []
    congr 1
    omega

theorem extendRight_equal (s : List Char) :
    ∀ (n : Nat) (best : FlmBest), s.length - (best.besti + best.bestsize) = n →
    best.besti = best.bestj → best.besti + best.bestsize ≤ s.length →
    extendRight s s s.length s.length (fun _ => false) best =
      FlmBest.mk best.besti best.bestj (s.length - best.besti) := by
  intro n
  induction n with
  | zero =>
    intro best h0 hd hle
    obtain ⟨bi, bj, bsz⟩ := best
    simp only [] at h0 hd hle ⊢
    subst hd
    rw [extendRight, dif_neg (fun hcon => by
      have h1 : bi + bsz < s.length := hcon.1
      omega)]
    congr 1
    omega
  | succ n ih =>
    intro best h0 hd hle
    obtain ⟨bi, bj, bsz⟩ := best
    simp only [] at h0 hd hle ⊢
    subst hd
    have hlt : bi + bsz < s.length := by omega
    rw [extendRight, dif_pos ⟨hlt, hlt, rfl, rfl⟩]
    rw [ih (FlmBest.mk bi bi (bsz + 1)) (by simp only []; omega) rfl
      (by simp only []; omega)]

theorem extendLeftJunk_id (a b : List Char) (alo blo : Nat) (best : FlmBest) :
    extendLeftJunk a b alo blo (fun _ => false) best = best := by
  rw [extendLeftJunk, dif_neg (fun hcon => by simpa using hcon.2.2.1)]

theorem extendRightJunk_id (a b : List Char) (ahi bhi : Nat) (best : FlmBest) :
    extendRightJunk a b ahi bhi (fun _ => false) best = best := by
  rw [extendRightJunk, dif_neg (fun hcon => by simpa using hcon.2.2.1)]

theorem flm_equal (s : List Char) :
    find_longest_match s s 0 s.length 0 s.length = FlmBest.mk 0 0 s.length := by
  simp only [find_longest_match, Nat.sub_zero]
  obtain ⟨hdiag, hfit⟩ := flmOuter_equal s s.length 0 (fun _ => 0) (FlmBest.mk 0 0 0)
    (by omega)
    ⟨fun x => Nat.zero_le _, fun x => Nat.zero_le _, Or.inl rfl, rfl,
      fun j hj => absurd hj (Nat.not_lt_zero j), Nat.zero_le _⟩
  rw [extendLeft_equal s
    (flmOuter s s 0 s.length (List.range' 0 s.length) (fun _ => 0)
      (FlmBest.mk 0 0 0)).besti _ rfl hdiag]
  rw [extendRight_equal s _ _ rfl rfl (by simp only []; omega)]
  rw [extendLeftJunk_id, extendRightJunk_id]
  simp

theorem get_matching_blocks_self (s : List Char) (hs : s ≠ []) :
    get_matching_blocks s s = [(0, 0, s.length), (s.length, s.length, 0)] := by
  have hL : 0 < s.length := List.length_pos.mpr hs
  unfold get_matching_blocks
  have hblocks : mblocksF s s (s.length + 1) 0 s.length 0 s.length =
      [(0, 0, s.length)] := by
    simp only [mblocksF]
    rw [flm_equal]
    simp only []
    rw [if_neg (by omega), if_neg (by simp), if_neg (by omega)]
    simp
  rw [hblocks]
  simp only []
  rw [List.mergeSort_singleton]
  simp [mergeAdjacent, Nat.pos_iff_ne_zero.mp hL]

theorem ratioQ_self (s : List Char) : ratioQ s s = 1 := by
  rcases eq_or_ne s [] with rfl | hs
  · rfl
  · have hL : 0 < s.length := List.length_pos.mpr hs
    unfold ratioQ
    rw [get_matching_blocks_self s hs]
    rw [if_neg (by omega)]
    have hm : sumSizes [(0, 0, s.length), (s.length, s.length, 0)] = s.length := by
      simp [sumSizes]
    rw [hm]
    have hq : (0 : ℚ) < (s.length : ℚ) := by exact_mod_cast hL
    push_cast
    rw [show ((s.length : ℚ) + s.length) = 2 * (s.length : ℚ) from by ring]
    exact div_self (ne_of_gt (by linarith))

theorem flmOuter_skip (a b : List Char) (blo bhi : Nat) :
    ∀ (rows : List Nat) (j2len : Nat → Nat) (best : FlmBest),
    (∀ i ∈ rows, b2j b (a.getD i ' ') = []) →
    flmOuter a b blo bhi rows j2len best = best := by
  intro rows
  induction rows with
  | nil => intro j2len best _; rfl
  | cons i rows ih =>
    intro j2len best h
    simp only [flmOuter]
    rw [h i (List.mem_cons_self _ _)]
    simp only [flmInner]
    exact ih _ _ (fun x hx => h x (List.mem_cons_of_mem i hx))

theorem flm_no_match (a b : List Char)
    (hb2j : ∀ i, i < a.length → b2j b (a.getD i ' ') = [])
    (hch : 0 < a.length → 0 < b.length → a.getD 0 ' ' ≠ b.getD 0 ' ') :
    find_longest_match a b 0 a.length 0 b.length = FlmBest.mk 0 0 0 := by
  simp only [find_longest_match, Nat.sub_zero]
  rw [flmOuter_skip a b 0 b.length (List.range' 0 a.length) (fun _ => 0)
    (FlmBest.mk 0 0 0)
    (fun i hi => hb2j i (by have := (List.mem_range'_1.mp hi).2; omega))]
  rw [extendLeft, dif_neg (fun hcon => Nat.lt_irrefl 0 hcon.1)]
  rw [extendRight, dif_neg (fun hcon => hch (by simpa using hcon.1)
    (by simpa using hcon.2.1) hcon.2.2.2)]
  rw [extendLeftJunk_id, extendRightJunk_id]

theorem ratioQ_no_common (a b : List Char)
    (hb2j : ∀ i, i < a.length → b2j b (a.getD i ' ') = [])
    (hch : 0 < a.length → 0 < b.length → a.getD 0 ' ' ≠ b.getD 0 ' ')
    (hne : a.length + b.length ≠ 0) :
    ratioQ a b = 0 := by
  unfold ratioQ
  rw [if_neg hne]
  have hblocks : get_matching_blocks a b = [(a.length, b.length, 0)] := by
    unfold get_matching_blocks
    have h1 : mblocksF a b (a.length + 1) 0 a.length 0 b.length = [] := by
      simp only [mblocksF]
      rw [flm_no_match a b hb2j hch]
      simp
    rw [h1]
    simp [mergeAdjacent]
  rw [hblocks]
  simp [sumSizes]

theorem ratioQ_disjoint (a b : List Char) (hd : ∀ c ∈ a, c ∉ b) (ha : a ≠ []) :
    ratioQ a b = 0 := by
  have hla : 0 < a.length := List.length_pos.mpr ha
  apply ratioQ_no_common
  · intro i hi
    unfold b2j
    by_cases hp : isPopular b (a.getD i ' ') = true
    · rw [if_pos hp]
    · rw [if_neg hp]
      unfold indicesOf
      refine List.filter_eq_nil_iff.mpr ?_
      intro j hj
      have hjb : j < b.length := List.mem_range.mp hj
      rw [List.getD_eq_getElem b ' ' hjb, List.getD_eq_getElem a ' ' hi]
      have hai : a[i] ∈ a := List.getElem_mem hi
      have hbj : b[j] ∈ b := List.getElem_mem hjb
      simp only [beq_iff_eq]
      intro he
      exact hd a[i] hai (he ▸ hbj)
  · intro ha0 hb0
    rw [List.getD_eq_getElem a ' ' ha0, List.getD_eq_getElem b ' ' hb0]
    have hai : a[0] ∈ a := List.getElem_mem ha0
    have hbj : b[0] ∈ b := List.getElem_mem hb0
    intro he
    exact hd a[0] hai (he ▸ hbj)
  · omega

theorem ratioQ_empty_right (a : List Char) (ha : a ≠ []) : ratioQ a [] = 0 := by
  have hla : 0 < a.length := List.length_pos.mpr ha
  apply ratioQ_no_common
  · intro i _
    rfl
  · intro _ hb0
    exact absurd hb0 (by simp)
  · have h0 : ([] : List Char).length = 0 := rfl
    omega

theorem maxRatioQ_cons_ne_none (s b : List Char) (bs : List (List Char)) :
    maxRatioQ s (b :: bs) ≠ none := by
  simp only [maxRatioQ]
  cases maxRatioQ s bs with
  | none => simp
  | some m => simp

theorem maxRatioQ_mem (s : List Char) :
    ∀ (bs : List (List Char)) (m : ℚ), maxRatioQ s bs = some m →
    ∃ b ∈ bs, ratioQ s b = m := by
  intro bs
  induction bs with
  | nil => intro m h; cases h
  | cons b bs ih =>
    intro m h
    simp only [maxRatioQ] at h
    cases hq : maxRatioQ s bs with
    | none =>
      rw [hq] at h
      simp only [Option.some.injEq] at h
      subst h
      exact ⟨b, List.mem_cons_self _ _, rfl⟩
    | some m0 =>
      rw [hq] at h
      simp only [Option.some.injEq] at h
      subst h
      rcases le_or_lt m0 (ratioQ s b) with hle | hlt
      · rw [max_eq_left hle]
        exact ⟨b, List.mem_cons_self _ _, rfl⟩
      · rw [max_eq_right (le_of_lt hlt)]
        obtain ⟨b0, hb0, hr⟩ := ih m0 hq
        exact ⟨b0, List.mem_cons_of_mem b hb0, hr⟩

theorem maxRatioQ_ge (s : List Char) :
    ∀ (bs : List (List Char)) (b : List Char), b ∈ bs →
    ∀ m, maxRatioQ s bs = some m → ratioQ s b ≤ m := by
  intro bs
  induction bs with
  | nil => intro b hb; exact absurd hb (List.not_mem_nil b)
  | cons b0 bs ih =>
    intro b hb m h
    simp only [maxRatioQ] at h
    cases hq : maxRatioQ s bs with
    | none =>
      rw [hq] at h
      simp only [Option.some.injEq] at h
      subst h
      rcases List.mem_cons.mp hb with rfl | hbs
      · exact le_refl _
      · cases bs with
        | nil => exact absurd hbs (List.not_mem_nil b)
        | cons c l => exact absurd hq (maxRatioQ_cons_ne_none s c l)
    | some m0 =>
      rw [hq] at h
      simp only [Option.some.injEq] at h
      subst h
      rcases List.mem_cons.mp hb with rfl | hbs
      · exact le_max_left _ _
      · exact le_trans (ih b hbs m0 hq) (le_max_right _ _)

/-- Claim C3 (as amended): `fuzzy_match_schools` maps a source name `s`
exactly according to `specSelect` — the first-encountered target with the
maximum SequenceMatcher ratio, accepted only when that maximum reaches
the threshold, is strictly positive, and the selected target is nonempty
(Python truthiness of `if best_match:`); a source name identical to a
nonempty target always matches, with ratio at least 1; and a source name
sharing no character with any target never matches. -/
theorem fuzzy_match_characterization :
    (∀ (csv excel : List (List Char)) (t : ℚ) (s : List Char),
      lookupD (fuzzy_match_schools csv excel t) s =
        if s ∈ csv then specSelect t s excel else none) ∧
    (∀ (csv excel : List (List Char)) (t : ℚ) (s : List Char),
      s ∈ csv → s ∈ excel → s ≠ [] → t ≤ 1 →
      ∃ b, lookupD (fuzzy_match_schools csv excel t) s = some b ∧
        t ≤ ratioQ s b ∧ 1 ≤ ratioQ s b) ∧
    (∀ (csv excel : List (List Char)) (t : ℚ) (s : List Char),
      s ≠ [] → (∀ b ∈ excel, ∀ c ∈ s, c ∉ b) →
      lookupD (fuzzy_match_schools csv excel t) s = none) := by
  refine ⟨fun csv excel t s => fuzzy_lookup csv excel t s,
    fun csv excel t s hcsv hexcel hs ht => ?_,
    fun csv excel t s hs hd => ?_⟩
  · rw [fuzzy_lookup, if_pos hcsv]
    cases hM : maxRatioQ s excel with
    | none =>
      cases excel with
      | nil => exact absurd hexcel (List.not_mem_nil s)
      | cons e l => exact absurd hM (maxRatioQ_cons_ne_none s e l)
    | some m =>
      have h1m : 1 ≤ m := by
        have h := maxRatioQ_ge s excel s hexcel m hM
        rwa [ratioQ_self] at h
      unfold specSelect
      simp only [hM]
      rw [if_pos ⟨le_trans ht h1m, lt_of_lt_of_le zero_lt_one h1m⟩]
      obtain ⟨b0, hb0eq⟩ := Option.isSome_iff_exists.mp
        (List.find?_isSome.mpr (by
          obtain ⟨b1, hb1, hr1⟩ := maxRatioQ_mem s excel m hM
          exact ⟨b1, hb1, beq_iff_eq.mpr hr1⟩))
      simp only [hb0eq]
      have hrb0 : ratioQ s b0 = m := by simpa using List.find?_some hb0eq
      have hb0ne : b0.isEmpty = false := by
        cases hb0e : b0 with
        | nil =>
          rw [hb0e, ratioQ_empty_right s hs] at hrb0
          exfalso
          rw [← hrb0] at h1m
          norm_num at h1m
        | cons c l => rfl
      rw [if_neg (by simp [hb0ne])]
      exact ⟨b0, rfl, by rw [hrb0]; exact le_trans ht h1m,
        by rw [hrb0]; exact h1m⟩
  · rw [fuzzy_lookup]
    have hspec : specSelect t s excel = none := by
      unfold specSelect
      cases hM : maxRatioQ s excel with
      | none => rfl
      | some m =>
        simp only []
        obtain ⟨b0, hb0, hr⟩ := maxRatioQ_mem s excel m hM
        have hz : ratioQ s b0 = 0 := ratioQ_disjoint s b0 (fun c hc => hd b0 hb0 c hc) hs
        rw [hz] at hr
        rw [if_neg (fun hcon : t ≤ m ∧ (0 : ℚ) < m => by
          rw [← hr] at hcon
          exact lt_irrefl 0 hcon.2)]
    rw [hspec]
    by_cases hcsv : s ∈ csv
    · rw [if_pos hcsv]
    · rw [if_neg hcsv]

unseal Nat.gcd Rat.mul Rat.inv Rat.add Rat.sub replaceL collapseWS extendLeft
  extendRight extendLeftJunk extendRightJunk List.merge List.mergeSort in
/-- Counterexample to the unamended claim C3: the empty source name is
identical to the empty target name and their ratio is 1, at least the
default threshold 0.8, yet `fuzzy_match_schools` omits it — Python's
`if best_match:` is false for the empty string. -/
theorem fuzzy_match_counterexample :
    ratioQ [] [] = 1 ∧ ((4 : ℚ)/5) ≤ 1 ∧
    ([] : List Char) ∈ [([] : List Char)] ∧
    lookupD (fuzzy_match_schools [[]] [[]] ((4 : ℚ)/5)) [] = none := by
  refine ⟨rfl, by norm_num, by simp, by decide⟩

unseal Nat.gcd Rat.mul Rat.inv Rat.add Rat.sub replaceL collapseWS extendLeft
  extendRight extendLeftJunk extendRightJunk List.merge List.mergeSort in
theorem fuzzy_match_characterization_witness :
    ∃ b, lookupD (fuzzy_match_schools ["ab".toList] ["ab".toList] ((4 : ℚ)/5))
        "ab".toList = some b ∧
      (4 : ℚ)/5 ≤ ratioQ "ab".toList b ∧ 1 ≤ ratioQ "ab".toList b :=
  fuzzy_match_characterization.2.1 ["ab".toList] ["ab".toList] ((4 : ℚ)/5)
    "ab".toList (by decide) (by decide) (by decide) (by norm_num)

end FSPS
